import Mathlib

/-!
Verification development for the circle-packing engine of `pack_circles.py`
(repository `xnx/circle-packing`).

The engine maintains a per-pixel "free radius" field whose entries are exact
Euclidean distances minus rational radius offsets, i.e. real numbers of the
shape `Real.sqrt n - q` with `n : ℕ` and `q` rational.  To keep every
definition kernel-computable we first build

* `Q` — exact rational arithmetic as an integer numerator over a positive
  natural denominator (no gcd normalisation, so all operations reduce in the
  kernel), with real denotation `qval`;
* `V` — values `√n − q` with a decidable order `vle` proved sound for the
  real denotation `vval`.

On top of those we give a faithful shallow embedding of `pack_circles`.
-/

namespace CirclePack



/-- Exact rationals: integer numerator over a positive natural denominator.
No normalisation is performed, so all arithmetic reduces in the kernel. -/
structure Q where
  num : ℤ
  den : ℕ
  pos : 0 < den
deriving DecidableEq

/-- Real denotation of `Q`. -/
noncomputable def qval (a : Q) : ℝ := (a.num : ℝ) / (a.den : ℝ)

def qofInt (n : ℤ) : Q := ⟨n, 1, Nat.one_pos⟩

def qofNat (n : ℕ) : Q := ⟨(n : ℤ), 1, Nat.one_pos⟩

def qadd (a b : Q) : Q :=
  ⟨a.num * (b.den : ℤ) + b.num * (a.den : ℤ), a.den * b.den, Nat.mul_pos a.pos b.pos⟩

def qneg (a : Q) : Q := ⟨-a.num, a.den, a.pos⟩

def qsub (a b : Q) : Q := qadd a (qneg b)

def qmul (a b : Q) : Q := ⟨a.num * b.num, a.den * b.den, Nat.mul_pos a.pos b.pos⟩

def qle (a b : Q) : Bool := decide (a.num * (b.den : ℤ) ≤ b.num * (a.den : ℤ))

def qlt (a b : Q) : Bool := decide (a.num * (b.den : ℤ) < b.num * (a.den : ℤ))

/-- Exact ceiling of a `Q` (the `/` on `ℤ` is Euclidean division, which
rounds down for a positive divisor). -/
def qceil (a : Q) : ℤ := -((-a.num) / (a.den : ℤ))

/-- Values of the shape `√rad − off` with `rad : ℕ` and `off` rational:
the exact numbers manipulated by the packing engine. -/
structure V where
  rad : ℕ
  off : Q
deriving DecidableEq

/-- Real denotation of `V`. -/
noncomputable def vval (v : V) : ℝ := Real.sqrt (v.rad : ℝ) - qval v.off

/-- Decidable order on `V`, sound for the real denotation (`vle_iff`).
`√A − p ≤ √B − q` iff `√A ≤ √B + t` with `t = p − q`; both directions of
that inequality are decided by rational arithmetic after squaring twice. -/
def vle (a b : V) : Bool :=
  let t := qsub a.off b.off
  let t2 := qmul t t
  cond (qle (qofInt 0) t)
    (qle (qsub (qsub (qofNat a.rad) (qofNat b.rad)) t2) (qofInt 0) ||
      qle (qmul (qsub (qsub (qofNat a.rad) (qofNat b.rad)) t2)
            (qsub (qsub (qofNat a.rad) (qofNat b.rad)) t2))
          (qmul (qmul (qofInt 4) t2) (qofNat b.rad)))
    (qle (qofInt 0) (qsub (qsub (qofNat b.rad) (qofNat a.rad)) t2) &&
      qle (qmul (qmul (qofInt 4) t2) (qofNat a.rad))
          (qmul (qsub (qsub (qofNat b.rad) (qofNat a.rad)) t2)
            (qsub (qsub (qofNat b.rad) (qofNat a.rad)) t2)))

/-- Strict order: `a < b` iff not `b ≤ a`. -/
def vlt (a b : V) : Bool := !(vle b a)

def vmin (a b : V) : V := if vle a b then a else b

def vmax (a b : V) : V := if vle a b then b else a

/-- Embed a rational into `V` (`√0 − (−q) = q`). -/
def vofQ (q : Q) : V := ⟨0, qneg q⟩

/-- Add a rational to a `V` value. -/
def vaddQ (v : V) (m : Q) : V := ⟨v.rad, qsub v.off m⟩

/-- Subtract a rational from a `V` value. -/
def vsubQ (v : V) (m : Q) : V := ⟨v.rad, qadd v.off m⟩

/-- Exact rationalisation: `some q` iff the radical part is a perfect
square, in which case the value is the rational `q`. -/
def vtoQ (v : V) : Option Q :=
  if Nat.sqrt v.rad * Nat.sqrt v.rad = v.rad then
    some (qsub (qofNat (Nat.sqrt v.rad)) v.off)
  else none

/-- Ceiling of a `V` value, computed from `Nat.sqrt` bracketing. -/
def vceil (v : V) : ℤ :=
  let c := qceil (qsub (qofNat (Nat.sqrt v.rad)) v.off)
  if vle v (vofQ (qofInt c)) then c else c + 1

/-! ### Grids and the Euclidean distance transform

`scipy.ndimage.distance_transform_edt` computes, for every pixel of a
boolean raster, the exact Euclidean distance to the nearest `False` pixel.
We embed it as the (bounded brute-force) minimum of squared distances over
all `False` pixels, wrapped as the `V` value `√minsq − 0`. -/

/-- A 2-dimensional integer raster (the boundary mask).  `data` is total;
only indices `y < H`, `x < W` are meaningful. -/
structure Mask where
  H : ℕ
  W : ℕ
  data : ℕ → ℕ → ℤ

/-- The interior grid: `Rmask = mask > 0` with the outermost ring of pixels
(`row 0`, `row -1`, `column 0`, `column -1`) forced `False`. -/
def interiorFg (mask : Mask) : ℕ → ℕ → Bool := fun y x =>
  decide (0 < mask.data y x) && !(decide (y = 0)) && !(decide (y = mask.H - 1)) &&
    !(decide (x = 0)) && !(decide (x = mask.W - 1))

/-- Squared Euclidean distance between pixels `(y, x)` and `(i, j)`. -/
def sqDist (y x i j : ℕ) : ℕ :=
  ((y : ℤ) - (i : ℤ)).natAbs ^ 2 + ((x : ℤ) - (j : ℤ)).natAbs ^ 2

/-- Minimum of a list of naturals (`none` on the empty list). -/
def natMinList : List ℕ → Option ℕ
  | [] => none
  | h :: t => some (t.foldl Nat.min h)

/-- Squared-distance Euclidean distance transform: the minimum squared
distance from `(y, x)` to a `False` pixel of the `H × W` raster `fg`
(`0` if there is no `False` pixel; both call sites below always have one). -/
def edtSq (H W : ℕ) (fg : ℕ → ℕ → Bool) (y x : ℕ) : ℕ :=
  match natMinList ((List.range H ×ˢ List.range W).filterMap
      (fun p => cond (fg p.1 p.2) none (some (sqDist y x p.1 p.2)))) with
  | some m => m
  | none => 0

/-! ### The packing machine

Faithful shallow embedding of `pack_circles` (src/pack_circles.py).
Randomness (`np.random.choice`, `np.random.beta`) is modelled by oracle
streams `choice : ℕ → ℕ` (the `k`-th draw selects index `choice k` modulo
the candidate count) and `beta : ℕ → Q`; all theorems quantify over them. -/

/-- A placed circle: `(y, x, r, mask[y, x])` as appended by `insert_circle`. -/
structure Circle where
  y : ℕ
  x : ℕ
  r : V
  label : ℤ
deriving DecidableEq

/-- Mutable run state: the radius field `Rmask`, the output list `circles`,
the running ceiling `Rmax`, and the random-draw counter. -/
structure St where
  field : ℕ → ℕ → V
  circles : List Circle
  Rmax : V
  rng : ℕ

/-- Fixed parameters of a run. -/
structure Ps where
  mask : Mask
  margin : Q
  choice : ℕ → ℕ

/-- `mask.flat[loc]` for a row-major flat index. -/
def maskFlat (mask : Mask) (loc : ℕ) : ℤ := mask.data (loc / mask.W) (loc % mask.W)

/-- `np.flatnonzero(Rmask >= r + margin)`: flat indices of all candidate
pixels, in increasing (row-major) order. -/
def candidates (ps : Ps) (field : ℕ → ℕ → V) (r : V) : List ℕ :=
  (List.range (ps.mask.H * ps.mask.W)).filter
    (fun loc => vle (vaddQ r ps.margin) (field (loc / ps.mask.W) (loc % ps.mask.W)))

/-- The erosion stencil grid: `np.ones((1+2m, 1+2m))` with a zero at the
centre `(m, m)` — foreground everywhere except the centre. -/
def erosionFg (m : ℕ) : ℕ → ℕ → Bool := fun i j => !(decide (i = m) && decide (j = m))

/-- `distance_transform_edt(erosion_mask) - r` at local window coordinates. -/
def erosionVal (m : ℕ) (rq : Q) (i j : ℕ) : V :=
  vsubQ ⟨edtSq (1 + 2 * m) (1 + 2 * m) (erosionFg m) i j, qofInt 0⟩ rq

/-- Result of one `insert_circle` call.  `numFail` is an embedding limit
(not present in the source): when a greedy target radius has an irrational
value, `erosion_mask - r` leaves the `√n − q` value domain and the run is
aborted; all concrete runs below stay clear of it. -/
inductive IRes where
  | noSpace
  | placed (st : St)
  | numFail

/-- The update-window half-width `mask_r = int(np.ceil(r + Rmax))`. -/
def repairHW (Rmax : V) (rq : Q) : ℕ := (vceil (vaddQ Rmax rq)).toNat

/-- The field repair of `insert_circle` after committing `(y, x, r)` with
`r = rq` rational: update window `Rmask[y0:y1, x0:x1]` with the clipped
erosion stencil `erosion_mask[i0:i1, j0:j1]`, mirroring the source's index
adjustments (`i1`/`j1` are determined by the equal slice shapes, so the
pointwise form below is exact). -/
def repairField (mask : Mask) (field : ℕ → ℕ → V) (Rmax : V) (y x : ℕ) (rq : Q) :
    ℕ → ℕ → V :=
  let mask_r : ℕ := repairHW Rmax rq
  let y0a : ℤ := (y : ℤ) - mask_r
  let y1a : ℤ := (y : ℤ) + mask_r + 1
  let x0a : ℤ := (x : ℤ) - mask_r
  let x1a : ℤ := (x : ℤ) + mask_r + 1
  -- i0 -= y0; y0 = 0  (and the analogous adjustments on each side)
  let i0 : ℤ := if y0a < 0 then -y0a else 0
  let y0 : ℤ := if y0a < 0 then 0 else y0a
  let y1 : ℤ := if y1a > (mask.H : ℤ) then (mask.H : ℤ) else y1a
  let j0 : ℤ := if x0a < 0 then -x0a else 0
  let x0 : ℤ := if x0a < 0 then 0 else x0a
  let x1 : ℤ := if x1a > (mask.W : ℤ) then (mask.W : ℤ) else x1a
  fun gy gx =>
    if y0 ≤ (gy : ℤ) ∧ (gy : ℤ) < y1 ∧ x0 ≤ (gx : ℤ) ∧ (gx : ℤ) < x1 then
      vmin (field gy gx)
        (erosionVal mask_r rq (i0 + ((gy : ℤ) - y0)).toNat (j0 + ((gx : ℤ) - x0)).toNat)
    else field gy gx

/-- `insert_circle(r)`: query candidates, pick one through the oracle,
append the circle, and repair the field on the clipped window.
One divergence in an unreachable corner: for `ceil(r + Rmax) < 0` the
source would crash constructing `np.ones` with a negative size, while
`Int.toNat` yields a 1×1 window here. -/
def insertCircle (ps : Ps) (st : St) (r : V) : IRes :=
  match candidates ps st.field r with
  | [] => .noSpace
  | l0 :: ls =>
    let loc := (l0 :: ls).get ⟨ps.choice st.rng % (l0 :: ls).length, Nat.mod_lt _ (Nat.succ_pos _)⟩
    let y := loc / ps.mask.W
    let x := loc % ps.mask.W
    let circles2 := st.circles ++ [⟨y, x, r, maskFlat ps.mask loc⟩]
    match vtoQ r with
    | none => .numFail
    | some rq =>
      .placed ⟨repairField ps.mask st.field st.Rmax y x rq, circles2, st.Rmax, st.rng + 1⟩

/-- All field entries of the `H × W` grid, in row-major order. -/
def gridVals (mask : Mask) (field : ℕ → ℕ → V) : List V :=
  (List.range (mask.H * mask.W)).map (fun loc => field (loc / mask.W) (loc % mask.W))

/-- Maximum of a list of `V` values (`0` on the empty list; `Rmask.max()`
in the source would raise on an empty array, which only happens for a
0-pixel mask). -/
def vmaxList : List V → V
  | [] => vofQ (qofInt 0)
  | h :: t => t.foldl vmax h

/-- `Rmask.max()`. -/
def fieldMax (mask : Mask) (field : ℕ → ℕ → V) : V := vmaxList (gridVals mask field)

/-- Run-level errors.  `valueError` and `indexError` mirror Python
exceptions; `numFail` is the embedding limit of `IRes.numFail`; `fuelOut`
is loop-fuel exhaustion (ruled out for greedy mode by the
termination theorem below). -/
inductive PackErr where
  | valueError
  | indexError
  | numFail
  | fuelOut
deriving DecidableEq

/-- Non-fatal `warnings.warn` notices raised by `pack_circles`. -/
inductive Notice where
  | subPixelRmin
  | infeasible
  | reduceRmax
deriving DecidableEq

/-- `while insert_circle(Rmax - margin): pass` — insert at the current
target size until a query fails. -/
def innerLoop (ps : Ps) : ℕ → St → Except PackErr St
  | 0, _ => .error .fuelOut
  | fuel + 1, st =>
    match insertCircle ps st (vsubQ st.Rmax ps.margin) with
    | .noSpace => .ok st
    | .numFail => .error .numFail
    | .placed st2 => innerLoop ps fuel st2

/-- `while Rmin + margin <= Rmax: (inner loop); Rmax = Rmask.max()`. -/
def outerLoop (ps : Ps) (Rmin : Q) : ℕ → St → Except PackErr St
  | 0, _ => .error .fuelOut
  | fuel + 1, st =>
    if vle (vofQ (qadd Rmin ps.margin)) st.Rmax then
      match innerLoop ps (ps.mask.H * ps.mask.W + 1) st with
      | .error e => .error e
      | .ok st2 => outerLoop ps Rmin fuel ⟨st2.field, st2.circles, fieldMax ps.mask st2.field, st2.rng⟩
    else .ok st

/-- `for r in radii[::-1]: ...` — the fixed-radii driving loop.
`rsmall` is `radii[0]`, the smallest requested radius. -/
def fixedLoop (ps : Ps) (Rmin rsmall : Q) : List Q → St → Except PackErr St
  | [], st => .ok st
  | r :: rest, st =>
    if !(vle (vofQ (qadd Rmin ps.margin)) st.Rmax) then .ok st
    else if !(vle (vofQ (qadd r ps.margin)) st.Rmax) then
      if !(vle (vofQ (qadd rsmall ps.margin)) st.Rmax) then .ok st
      else fixedLoop ps Rmin rsmall rest st
    else
      match insertCircle ps st (vofQ r) with
      | .noSpace => fixedLoop ps Rmin rsmall rest ⟨st.field, st.circles, fieldMax ps.mask st.field, st.rng⟩
      | .numFail => .error .numFail
      | .placed st2 => fixedLoop ps Rmin rsmall rest st2

/-- Insertion sort (ascending) by `qle` — `radii.sort()`. -/
def qinsert (a : Q) : List Q → List Q
  | [] => [a]
  | b :: t => if qle a b then a :: b :: t else b :: qinsert a t

def qsortAsc : List Q → List Q
  | [] => []
  | a :: t => qinsert a (qsortAsc t)

/-- The value returned by `pack_circles`: a bare circle list, or the pair
`(circles, Rmask)` when `return_dists` is honoured. -/
inductive PackOut where
  | circlesOnly (circles : List Circle)
  | withField (circles : List Circle) (field : ℕ → ℕ → V)

def PackOut.circles : PackOut → List Circle
  | .circlesOnly cs => cs
  | .withField cs _ => cs

def PackOut.isPair : PackOut → Bool
  | .circlesOnly _ => false
  | .withField _ _ => true

/-- The initial radius field: exact Euclidean distance of every pixel to
the nearest non-interior pixel (`distance_transform_edt(Rmask)`). -/
def initField (mask : Mask) : ℕ → ℕ → V := fun y x =>
  ⟨edtSq mask.H mask.W (interiorFg mask) y x, qofInt 0⟩

/-- The `Rmin < 1` subpixel clamp (source line 83). -/
def clampRmin (q : Q) : Q := if qlt q (qofInt 1) then qofInt 1 else q

/-- The part of `pack_circles` from the `Rmin < 1` clamp (source line 83)
onward, shared by both modes; `Rmin1`/`Rmax1` are the absolute bounds
already derived, `sortedAsc` the ascending-sorted radii (unused in greedy
mode). -/
def packMain (ps : Ps) (greedy : Bool) (Rmin1 Rmax1 : Q) (sortedAsc : List Q)
    (returnDists : Bool) : Except PackErr (PackOut × List Notice) :=
  let Rmin : Q := clampRmin Rmin1
  let notices0 : List Notice := if qlt Rmin1 (qofInt 1) then [.subPixelRmin] else []
  let field0 : ℕ → ℕ → V := initField ps.mask
  let RmaskMax := fieldMax ps.mask field0
  if vlt RmaskMax (vofQ Rmin) then
    -- source line 101: `return []` — return_dists is ignored here
    .ok (.circlesOnly [], notices0 ++ [.infeasible])
  else
    let cfg : ((ℕ → ℕ → V) × V × List Notice) :=
      if vlt RmaskMax (vofQ Rmax1) then
        (field0, RmaskMax, notices0 ++ [.reduceRmax])
      else
        (fun y x => if vlt (vofQ Rmax1) (field0 y x) then vofQ Rmax1 else field0 y x,
          vofQ Rmax1, notices0)
    let st0 : St := ⟨cfg.1, [], cfg.2.1, 0⟩
    let run : Except PackErr St :=
      if greedy then outerLoop ps Rmin (ps.mask.H * ps.mask.W + 2) st0
      else fixedLoop ps Rmin (sortedAsc.headD (qofInt 0)) sortedAsc.reverse st0
    match run with
    | .error e => .error e
    | .ok stF =>
      if returnDists then .ok (.withField stF.circles stF.field, cfg.2.2)
      else .ok (.circlesOnly stF.circles, cfg.2.2)

/-- Shallow embedding of `pack_circles`.  `mask` is 2-D by construction, so
the `"mask must be 2D"` branch has no counterpart; likewise a radii
argument is 1-D by construction.  In greedy mode the source binds
`n = sys.maxsize` when absent and never references `n` again — the cap is
ignored, which this embedding mirrors by not using `n` on the greedy path. -/
def packCircles (mask : Mask) (radii : Option (List Q)) (n : Option ℕ) (margin : Q)
    (radius_range : Q × Q) (greedy0 : Bool) (returnDists : Bool)
    (choice : ℕ → ℕ) (beta : ℕ → Q) : Except PackErr (PackOut × List Notice) :=
  if ¬greedy0 ∧ radii = none ∧ n = none then .error .valueError
  else
    let greedy := if radii.isSome then false else greedy0
    let ps : Ps := ⟨mask, margin, choice⟩
    let min_dim : ℕ := Nat.min mask.H mask.W
    let Rmin0 : Q := qmul radius_range.1 (qofNat min_dim)
    let Rmax0 : Q := qmul radius_range.2 (qofNat min_dim)
    if greedy then
      packMain ps true Rmin0 Rmax0 [] returnDists
    else
      let rs : List Q :=
        match radii with
        | some rs => rs
        | none =>
          -- radii = Rmin + (Rmax - Rmin) * np.random.beta(0.5, 1, size=n)
          (List.range (n.getD 0)).map (fun k => qadd Rmin0 (qmul (qsub Rmax0 Rmin0) (beta k)))
      let sorted := qsortAsc rs
      match sorted with
      | [] => .error .indexError  -- `Rmin = radii[0]` on an empty array: IndexError
      | r0 :: rest =>
        packMain ps false r0 (List.getLastD rest r0) (r0 :: rest) returnDists

/-- The circle list of a successful run. -/
def runCircles (res : Except PackErr (PackOut × List Notice)) : Option (List Circle) :=
  match res with
  | .ok (out, _) => some out.circles
  | .error _ => none

/-- Whether a successful run returned the `(circles, Rmask)` pair. -/
def runIsPair (res : Except PackErr (PackOut × List Notice)) : Bool :=
  match res with
  | .ok (out, _) => out.isPair
  | .error _ => false

/-- The notices of a successful run. -/
def runNotices (res : Except PackErr (PackOut × List Notice)) : Option (List Notice) :=
  match res with
  | .ok (_, ns) => some ns
  | .error _ => none

/-! ### Specification-side definitions and concrete inputs -/

/-- Euclidean distance between pixels, the specification-side measure for
the no-overlap and window properties. -/
noncomputable def pdist (y x i j : ℕ) : ℝ := Real.sqrt ((sqDist y x i j : ℝ))

/-- Number of grid pixels whose field value is strictly positive — the
termination measure of the greedy loops. -/
def posCount (mask : Mask) (field : ℕ → ℕ → V) : ℕ :=
  ((List.range (mask.H * mask.W)).filter
    (fun loc => vlt (vofQ (qofInt 0)) (field (loc / mask.W) (loc % mask.W)))).length

/-- An all-ones rectangular mask. -/
def onesMask (H W : ℕ) : Mask := ⟨H, W, fun _ _ => 1⟩

/-- An all-zero rectangular mask. -/
def zeroMask (H W : ℕ) : Mask := ⟨H, W, fun _ _ => 0⟩

/-- The trivial selection oracle (always the first candidate) and a
constant beta oracle, used in the concrete runs. -/
def oracle0 : ℕ → ℕ := fun _ => 0

def beta0 : ℕ → Q := fun _ => qofInt 0

/-- Extract the state of a `placed` result (defaulting otherwise). -/
def placedOf (i : IRes) (d : St) : St :=
  match i with
  | .placed s => s
  | _ => d

/-- Concrete inputs for witnesses: a 3×3 all-ones mask, margin 1, a state
with constant field 2 and ceiling 2, and target radius 1. -/
def psW : Ps := ⟨onesMask 3 3, qofInt 1, oracle0⟩

def stW : St := ⟨fun _ _ => vofQ (qofInt 2), [], vofQ (qofInt 2), 0⟩

def rW : V := vofQ (qofInt 1)

/-- Greedy run on a 5×9 all-ones mask with `radius_range = (1/5, 2/5)`
(absolute bounds 1 and 2), margin 1, and circle cap `n = 1`. -/
def greedyCapRun : Except PackErr (PackOut × List Notice) :=
  packCircles (onesMask 5 9) none (some 1) (qofInt 1)
    (⟨1, 5, by decide⟩, ⟨2, 5, by decide⟩) true false oracle0 beta0

/-- Fixed-radii run on a 9×9 all-ones mask with `radii = [10, 2]`, margin 1. -/
def fixedRadiiRun : Except PackErr (PackOut × List Notice) :=
  packCircles (onesMask 9 9) (some [qofInt 10, qofInt 2]) none (qofInt 1)
    (⟨1, 200, by decide⟩, ⟨1, 20, by decide⟩) true false oracle0 beta0

/-- Greedy run on a 3×3 all-zero mask with `return_dists = true`. -/
def zeroMaskPairRun : Except PackErr (PackOut × List Notice) :=
  packCircles (zeroMask 3 3) none none (qofInt 1)
    (⟨1, 200, by decide⟩, ⟨1, 20, by decide⟩) true true oracle0 beta0

/-- Run with an explicitly empty radii sequence. -/
def emptyRadiiRun : Except PackErr (PackOut × List Notice) :=
  packCircles (onesMask 5 5) (some []) none (qofInt 1)
    (⟨1, 200, by decide⟩, ⟨1, 20, by decide⟩) true false oracle0 beta0

/-- The run invariant maintained by every insertion and ceiling refresh:
the field is bounded by the ceiling, the field separates every placed
circle, placed circles are pairwise separated by `margin`, and every
circle is in bounds with the label read from the mask at its centre. -/
structure Inv (ps : Ps) (st : St) : Prop where
  bound : ∀ y x, y < ps.mask.H → x < ps.mask.W → vval (st.field y x) ≤ vval st.Rmax
  sep : ∀ c ∈ st.circles, ∀ y x, y < ps.mask.H → x < ps.mask.W →
    vval (st.field y x) ≤ pdist y x c.y c.x - vval c.r
  pair : st.circles.Pairwise (fun c d =>
    qval ps.margin + vval c.r + vval d.r ≤ pdist c.y c.x d.y d.x)
  inBounds : ∀ c ∈ st.circles, c.y < ps.mask.H ∧ c.x < ps.mask.W ∧
    c.label = ps.mask.data c.y c.x

/-- Greedy-mode bookkeeping: the running ceiling never exceeds the initial
bound `Rmax0` (whenever the grid is non-empty, so that a refresh is
meaningful), and every placed circle's radius lies in `[Rmin, Rmax0]`. -/
structure InvG (ps : Ps) (Rmin Rmax0 : Q) (st : St) : Prop where
  rmax : 0 < ps.mask.H * ps.mask.W → vval st.Rmax ≤ qval Rmax0
  radii : ∀ c ∈ st.circles, qval Rmin ≤ vval c.r ∧ vval c.r ≤ qval Rmax0

theorem qden_posR (a : Q) : (0 : ℝ) < (a.den : ℝ) := by exact_mod_cast a.pos

theorem qden_ne (a : Q) : ((a.den : ℝ)) ≠ 0 := ne_of_gt (qden_posR a)

@[simp] theorem qval_ofInt (n : ℤ) : qval (qofInt n) = (n : ℝ) := by
  simp [qval, qofInt]

@[simp] theorem qval_ofNat (n : ℕ) : qval (qofNat n) = (n : ℝ) := by
  simp [qval, qofNat]

@[simp] theorem qval_add (a b : Q) : qval (qadd a b) = qval a + qval b := by
  unfold qval qadd
  have ha := qden_ne a
  have hb := qden_ne b
  push_cast
  field_simp

@[simp] theorem qval_neg (a : Q) : qval (qneg a) = -qval a := by
  unfold qval qneg
  push_cast
  ring

@[simp] theorem qval_sub (a b : Q) : qval (qsub a b) = qval a - qval b := by
  unfold qsub
  rw [qval_add, qval_neg]
  ring

@[simp] theorem qval_mul (a b : Q) : qval (qmul a b) = qval a * qval b := by
  unfold qval qmul
  have ha := qden_ne a
  have hb := qden_ne b
  push_cast
  field_simp

theorem qle_iff {a b : Q} : qle a b = true ↔ qval a ≤ qval b := by
  unfold qle qval
  rw [decide_eq_true_eq, div_le_div_iff (qden_posR a) (qden_posR b)]
  exact_mod_cast Iff.rfl

theorem qlt_iff {a b : Q} : qlt a b = true ↔ qval a < qval b := by
  unfold qlt qval
  rw [decide_eq_true_eq, div_lt_div_iff (qden_posR a) (qden_posR b)]
  exact_mod_cast Iff.rfl

theorem qle_false_iff {a b : Q} : qle a b = false ↔ qval b < qval a := by
  rw [← not_le, ← qle_iff]
  cases h : qle a b <;> simp

theorem floor_int_div_real (m : ℤ) (d : ℕ) (hd : 0 < d) :
    ⌊(m : ℝ) / (d : ℝ)⌋ = m / (d : ℤ) := by
  have hd' : (0 : ℤ) < (d : ℤ) := by exact_mod_cast hd
  have hdR : (0 : ℝ) < (d : ℝ) := by exact_mod_cast hd
  rw [Int.floor_eq_iff]
  constructor
  · rw [le_div_iff hdR]
    exact_mod_cast Int.ediv_mul_le m (ne_of_gt hd')
  · rw [div_lt_iff hdR]
    exact_mod_cast Int.lt_ediv_add_one_mul_self m hd'

theorem qceil_eq (a : Q) : qceil a = ⌈qval a⌉ := by
  have h : ⌊-qval a⌋ = (-a.num) / (a.den : ℤ) := by
    have := floor_int_div_real (-a.num) a.den a.pos
    rw [← this]
    unfold qval
    push_cast
    rw [neg_div]
  rw [Int.floor_neg] at h
  unfold qceil
  omega

theorem abs_le_of_sq_le_sq {d e : ℝ} (he : 0 ≤ e) (h : d ^ 2 ≤ e ^ 2) : d ≤ e := by
  nlinarith [sq_nonneg (d - e), sq_nonneg (d + e)]

theorem sqrt_le_sqrt_add_iff {A B t : ℝ} (hA : 0 ≤ A) (hB : 0 ≤ B) (ht : 0 ≤ t) :
    Real.sqrt A ≤ Real.sqrt B + t ↔
      (A - B - t ^ 2 ≤ 0 ∨ (A - B - t ^ 2) ^ 2 ≤ 4 * t ^ 2 * B) := by
  have hsB := Real.sqrt_nonneg B
  have hsA := Real.sqrt_nonneg A
  have hsB2 : Real.sqrt B ^ 2 = B := Real.sq_sqrt hB
  have hsA2 : Real.sqrt A ^ 2 = A := Real.sq_sqrt hA
  have hts : 0 ≤ 2 * t * Real.sqrt B := by positivity
  constructor
  · intro h
    by_cases hd : A - B - t ^ 2 ≤ 0
    · exact Or.inl hd
    · right
      push_neg at hd
      have h2 : A ≤ (Real.sqrt B + t) ^ 2 := by
        calc A = Real.sqrt A ^ 2 := hsA2.symm
        _ ≤ (Real.sqrt B + t) ^ 2 := by
          apply pow_le_pow_left₀ hsA h
      have h3 : A - B - t ^ 2 ≤ 2 * t * Real.sqrt B := by nlinarith
      nlinarith
  · intro h
    have key : A ≤ (Real.sqrt B + t) ^ 2 → Real.sqrt A ≤ Real.sqrt B + t := by
      intro h2
      have h3 := Real.sqrt_le_sqrt h2
      rwa [Real.sqrt_sq (by positivity)] at h3
    rcases h with hd | hd
    · exact key (by nlinarith)
    · apply key
      have h2 : A - B - t ^ 2 ≤ 2 * t * Real.sqrt B := by
        apply abs_le_of_sq_le_sq hts
        calc (A - B - t ^ 2) ^ 2 ≤ 4 * t ^ 2 * B := hd
        _ = (2 * t * Real.sqrt B) ^ 2 := by rw [mul_pow, mul_pow, hsB2]; ring
      nlinarith

theorem sqrt_add_le_sqrt_iff {A B s : ℝ} (hA : 0 ≤ A) (hB : 0 ≤ B) (hs : 0 < s) :
    Real.sqrt A + s ≤ Real.sqrt B ↔
      (0 ≤ B - A - s ^ 2 ∧ 4 * s ^ 2 * A ≤ (B - A - s ^ 2) ^ 2) := by
  have hsB := Real.sqrt_nonneg B
  have hsA := Real.sqrt_nonneg A
  have hsB2 : Real.sqrt B ^ 2 = B := Real.sq_sqrt hB
  have hsA2 : Real.sqrt A ^ 2 = A := Real.sq_sqrt hA
  have hsa : 0 ≤ 2 * s * Real.sqrt A := by positivity
  constructor
  · intro h
    have h2 : (Real.sqrt A + s) ^ 2 ≤ B := by
      calc (Real.sqrt A + s) ^ 2 ≤ Real.sqrt B ^ 2 := by
            apply pow_le_pow_left₀ (by positivity) h
      _ = B := hsB2
    constructor
    · nlinarith
    · nlinarith
  · rintro ⟨h1, h2⟩
    have h3 : 2 * s * Real.sqrt A ≤ B - A - s ^ 2 := by
      apply abs_le_of_sq_le_sq h1
      calc (2 * s * Real.sqrt A) ^ 2 = 4 * s ^ 2 * A := by
            rw [mul_pow, mul_pow, hsA2]; ring
      _ ≤ (B - A - s ^ 2) ^ 2 := h2
    have h4 : (Real.sqrt A + s) ^ 2 ≤ B := by nlinarith
    have h5 := Real.sqrt_le_sqrt h4
    rwa [Real.sqrt_sq (by positivity)] at h5

theorem vle_iff {a b : V} : vle a b = true ↔ vval a ≤ vval b := by
  have hA : (0 : ℝ) ≤ (a.rad : ℝ) := Nat.cast_nonneg _
  have hB : (0 : ℝ) ≤ (b.rad : ℝ) := Nat.cast_nonneg _
  have hiff : vval a ≤ vval b ↔
      Real.sqrt (a.rad : ℝ) ≤ Real.sqrt (b.rad : ℝ) + (qval a.off - qval b.off) := by
    unfold vval
    constructor <;> intro h <;> linarith
  simp only [vle]
  cases hq : qle (qofInt 0) (qsub a.off b.off)
  · rw [cond_false, Bool.and_eq_true, hiff]
    have ht : qval a.off - qval b.off < 0 := by
      have := qle_false_iff.mp hq
      simpa using this
    have hrw : Real.sqrt (a.rad : ℝ) ≤ Real.sqrt (b.rad : ℝ) + (qval a.off - qval b.off) ↔
        Real.sqrt (a.rad : ℝ) + (qval b.off - qval a.off) ≤ Real.sqrt (b.rad : ℝ) := by
      constructor <;> intro h <;> linarith
    rw [hrw, sqrt_add_le_sqrt_iff hA hB (by linarith)]
    rw [qle_iff, qle_iff]
    simp only [qval_sub, qval_mul, qval_ofNat, qval_ofInt]
    constructor <;> rintro ⟨h1, h2⟩
    · constructor
      · push_cast at h1; nlinarith [h1]
      · push_cast at h2; nlinarith [h2]
    · constructor
      · push_cast; nlinarith [h1]
      · push_cast; nlinarith [h2]
  · rw [cond_true, Bool.or_eq_true, hiff]
    have ht : 0 ≤ qval a.off - qval b.off := by
      have := qle_iff.mp hq
      simpa using this
    rw [sqrt_le_sqrt_add_iff hA hB ht]
    rw [qle_iff, qle_iff]
    simp only [qval_sub, qval_mul, qval_ofNat, qval_ofInt]
    constructor <;> rintro (h | h)
    · left; push_cast at h; nlinarith [h]
    · right; push_cast at h; nlinarith [h]
    · left; push_cast; nlinarith [h]
    · right; push_cast; nlinarith [h]

theorem vle_false_iff {a b : V} : vle a b = false ↔ vval b < vval a := by
  rw [← not_le, ← vle_iff]
  cases h : vle a b <;> simp

theorem vlt_iff {a b : V} : vlt a b = true ↔ vval a < vval b := by
  unfold vlt
  rw [Bool.not_eq_true']
  exact vle_false_iff

theorem vval_vmin (a b : V) : vval (vmin a b) = min (vval a) (vval b) := by
  unfold vmin
  by_cases h : vle a b = true
  · rw [if_pos h, min_eq_left (vle_iff.mp h)]
  · have := vle_false_iff.mp (by simpa using h)
    rw [if_neg h, min_eq_right this.le]

theorem vval_vmax (a b : V) : vval (vmax a b) = max (vval a) (vval b) := by
  unfold vmax
  by_cases h : vle a b = true
  · rw [if_pos h, max_eq_right (vle_iff.mp h)]
  · have := vle_false_iff.mp (by simpa using h)
    rw [if_neg h, max_eq_left this.le]

@[simp] theorem vval_ofQ (q : Q) : vval (vofQ q) = qval q := by
  unfold vval vofQ
  simp [Real.sqrt_zero]

@[simp] theorem vval_vaddQ (v : V) (m : Q) : vval (vaddQ v m) = vval v + qval m := by
  unfold vval vaddQ
  simp only [qval_sub]
  ring

@[simp] theorem vval_vsubQ (v : V) (m : Q) : vval (vsubQ v m) = vval v - qval m := by
  unfold vval vsubQ
  simp only [qval_add]
  ring

theorem vtoQ_sound {v : V} {q : Q} (h : vtoQ v = some q) : vval v = qval q := by
  unfold vtoQ at h
  by_cases hsq : Nat.sqrt v.rad * Nat.sqrt v.rad = v.rad
  · rw [if_pos hsq] at h
    injection h with h
    subst h
    unfold vval
    have : ((v.rad : ℝ)) = (Nat.sqrt v.rad : ℝ) * (Nat.sqrt v.rad : ℝ) := by
      exact_mod_cast hsq.symm
    rw [this, Real.sqrt_mul_self (Nat.cast_nonneg _)]
    simp
  · rw [if_neg hsq] at h
    exact absurd h (by simp)

theorem sqrt_nat_bracket (n : ℕ) :
    (Nat.sqrt n : ℝ) ≤ Real.sqrt (n : ℝ) ∧ Real.sqrt (n : ℝ) < (Nat.sqrt n : ℝ) + 1 := by
  constructor
  · have h1 : ((Nat.sqrt n : ℝ)) ^ 2 ≤ (n : ℝ) := by exact_mod_cast Nat.sqrt_le' n
    have := Real.sqrt_le_sqrt h1
    rwa [Real.sqrt_sq (Nat.cast_nonneg _)] at this
  · have h1 : (n : ℝ) < ((Nat.sqrt n : ℝ) + 1) ^ 2 := by
      have := Nat.lt_succ_sqrt' n
      exact_mod_cast this
    rw [Real.sqrt_lt' (by positivity)]
    exact h1

theorem vceil_eq (v : V) : vceil v = ⌈vval v⌉ := by
  unfold vceil
  have hb := sqrt_nat_bracket v.rad
  have hlo : (Nat.sqrt v.rad : ℝ) - qval v.off ≤ vval v := by
    unfold vval; linarith [hb.1]
  have hhi : vval v < (Nat.sqrt v.rad : ℝ) + 1 - qval v.off := by
    unfold vval; linarith [hb.2]
  have hcv : qval (qsub (qofNat (Nat.sqrt v.rad)) v.off) =
      (Nat.sqrt v.rad : ℝ) - qval v.off := by simp
  by_cases hc : vle v (vofQ (qofInt (qceil (qsub (qofNat (Nat.sqrt v.rad)) v.off)))) = true
  · rw [if_pos hc]
    have h1 := vle_iff.mp hc
    rw [vval_ofQ, qval_ofInt, qceil_eq, hcv] at h1
    symm
    rw [Int.ceil_eq_iff]
    constructor
    · have := Int.ceil_lt_add_one ((Nat.sqrt v.rad : ℝ) - qval v.off)
      rw [qceil_eq, hcv]
      linarith
    · rw [qceil_eq, hcv]
      exact h1
  · rw [if_neg hc]
    have h1 := vle_false_iff.mp (by simpa using hc)
    rw [vval_ofQ, qval_ofInt, qceil_eq, hcv] at h1
    symm
    rw [Int.ceil_eq_iff]
    constructor
    · rw [qceil_eq, hcv]
      push_cast
      linarith
    · rw [qceil_eq, hcv]
      have := Int.le_ceil ((Nat.sqrt v.rad : ℝ) - qval v.off)
      push_cast
      linarith

theorem foldl_min_le (t : List ℕ) : ∀ (h : ℕ), t.foldl Nat.min h ≤ h := by
  induction t with
  | nil => intro h; exact le_refl h
  | cons a t ih =>
    intro h
    calc (a :: t).foldl Nat.min h = t.foldl Nat.min (Nat.min h a) := rfl
    _ ≤ Nat.min h a := ih _
    _ ≤ h := Nat.min_le_left _ _

theorem foldl_min_mem (t : List ℕ) : ∀ (h : ℕ), t.foldl Nat.min h = h ∨ t.foldl Nat.min h ∈ t := by
  induction t with
  | nil => intro h; exact Or.inl rfl
  | cons a t ih =>
    intro h
    rcases ih (Nat.min h a) with he | hm
    · by_cases hc : h ≤ a
      · refine Or.inl ?_
        rw [List.foldl_cons, he]
        show min h a = h
        exact min_eq_left hc
      · refine Or.inr ?_
        rw [List.foldl_cons, he]
        have hmr : min h a = a := min_eq_right (le_of_not_le hc)
        show min h a ∈ a :: t
        rw [hmr]
        exact List.mem_cons_self a t
    · exact Or.inr (List.mem_cons_of_mem a hm)

theorem foldl_min_le_mem (t : List ℕ) : ∀ (h : ℕ), ∀ a ∈ t, t.foldl Nat.min h ≤ a := by
  induction t with
  | nil => intro h a ha; cases ha
  | cons b t ih =>
    intro h a ha
    rcases List.mem_cons.mp ha with he | hm
    · subst he
      calc (a :: t).foldl Nat.min h = t.foldl Nat.min (Nat.min h a) := rfl
      _ ≤ Nat.min h a := foldl_min_le t _
      _ ≤ a := Nat.min_le_right _ _
    · exact ih (Nat.min h b) a hm

theorem natMinList_le {l : List ℕ} {m : ℕ} (h : natMinList l = some m) :
    ∀ a ∈ l, m ≤ a := by
  cases l with
  | nil => cases h
  | cons b t =>
    injection h with h
    intro a ha
    rcases List.mem_cons.mp ha with he | hm
    · subst he; rw [← h]; exact foldl_min_le t a
    · rw [← h]; exact foldl_min_le_mem t b a hm

theorem natMinList_mem {l : List ℕ} {m : ℕ} (h : natMinList l = some m) : m ∈ l := by
  cases l with
  | nil => cases h
  | cons b t =>
    injection h with h
    rcases foldl_min_mem t b with he | hm
    · rw [← h, he]; exact List.mem_cons_self b t
    · rw [← h]; exact List.mem_cons_of_mem b hm

theorem edtSq_le {H W : ℕ} {fg : ℕ → ℕ → Bool} (y x : ℕ) {i j : ℕ}
    (hi : i < H) (hj : j < W) (hfg : fg i j = false) :
    edtSq H W fg y x ≤ sqDist y x i j := by
  unfold edtSq
  have hmem : sqDist y x i j ∈ ((List.range H ×ˢ List.range W).filterMap
      (fun p => cond (fg p.1 p.2) none (some (sqDist y x p.1 p.2)))) := by
    rw [List.mem_filterMap]
    refine ⟨(i, j), ?_, ?_⟩
    · exact List.pair_mem_product.mpr ⟨List.mem_range.mpr hi, List.mem_range.mpr hj⟩
    · simp [hfg]
  cases hmin : natMinList ((List.range H ×ˢ List.range W).filterMap
      (fun p => cond (fg p.1 p.2) none (some (sqDist y x p.1 p.2)))) with
  | none =>
    exfalso
    rcases List.exists_mem_of_ne_nil _ (List.ne_nil_of_mem hmem) with _
    unfold natMinList at hmin
    cases hl : ((List.range H ×ˢ List.range W).filterMap
        (fun p => cond (fg p.1 p.2) none (some (sqDist y x p.1 p.2)))) with
    | nil => rw [hl] at hmem; cases hmem
    | cons a t => rw [hl] at hmin; cases hmin
  | some m => exact natMinList_le hmin _ hmem

theorem edtSq_attained {H W : ℕ} {fg : ℕ → ℕ → Bool} (y x : ℕ) {i0 j0 : ℕ}
    (hi : i0 < H) (hj : j0 < W) (hfg : fg i0 j0 = false) :
    ∃ i j, i < H ∧ j < W ∧ fg i j = false ∧ edtSq H W fg y x = sqDist y x i j := by
  have hmem : sqDist y x i0 j0 ∈ ((List.range H ×ˢ List.range W).filterMap
      (fun p => cond (fg p.1 p.2) none (some (sqDist y x p.1 p.2)))) := by
    rw [List.mem_filterMap]
    refine ⟨(i0, j0), ?_, ?_⟩
    · exact List.pair_mem_product.mpr ⟨List.mem_range.mpr hi, List.mem_range.mpr hj⟩
    · simp [hfg]
  unfold edtSq
  cases hmin : natMinList ((List.range H ×ˢ List.range W).filterMap
      (fun p => cond (fg p.1 p.2) none (some (sqDist y x p.1 p.2)))) with
  | none =>
    exfalso
    unfold natMinList at hmin
    cases hl : ((List.range H ×ˢ List.range W).filterMap
        (fun p => cond (fg p.1 p.2) none (some (sqDist y x p.1 p.2)))) with
    | nil => rw [hl] at hmem; cases hmem
    | cons a t => rw [hl] at hmin; cases hmin
  | some m =>
    have hm := natMinList_mem hmin
    rw [List.mem_filterMap] at hm
    rcases hm with ⟨⟨i, j⟩, hpm, hpv⟩
    have hij := List.pair_mem_product.mp hpm
    refine ⟨i, j, List.mem_range.mp hij.1, List.mem_range.mp hij.2, ?_, ?_⟩
    · cases hf : fg i j
      · rfl
      · rw [hf] at hpv; cases hpv
    · cases hf : fg i j
      · rw [hf] at hpv
        injection hpv with hpv
        show m = sqDist y x i j
        exact hpv.symm
      · rw [hf] at hpv; cases hpv

theorem vle_refl (a : V) : vle a a = true := vle_iff.mpr (le_refl _)

theorem foldl_vmax_ge_init (t : List V) : ∀ (h : V), vval h ≤ vval (t.foldl vmax h) := by
  induction t with
  | nil => intro h; exact le_refl _
  | cons a t ih =>
    intro h
    calc vval h ≤ vval (vmax h a) := by rw [vval_vmax]; exact le_max_left _ _
    _ ≤ vval (t.foldl vmax (vmax h a)) := ih _
    _ = vval ((a :: t).foldl vmax h) := rfl

theorem foldl_vmax_ge (t : List V) : ∀ (h : V), ∀ a ∈ t, vval a ≤ vval (t.foldl vmax h) := by
  induction t with
  | nil => intro h a ha; cases ha
  | cons b t ih =>
    intro h a ha
    rcases List.mem_cons.mp ha with he | hm
    · subst he
      calc vval a ≤ vval (vmax h a) := by rw [vval_vmax]; exact le_max_right _ _
      _ ≤ vval (t.foldl vmax (vmax h a)) := foldl_vmax_ge_init t _
    · exact ih (vmax h b) a hm

theorem vmax_cases (a b : V) : vmax a b = a ∨ vmax a b = b := by
  unfold vmax
  by_cases h : vle a b = true
  · rw [if_pos h]; exact Or.inr rfl
  · rw [if_neg h]; exact Or.inl rfl

theorem foldl_vmax_mem (t : List V) : ∀ (h : V), t.foldl vmax h = h ∨ t.foldl vmax h ∈ t := by
  induction t with
  | nil => intro h; exact Or.inl rfl
  | cons a t ih =>
    intro h
    have hstep : (a :: t).foldl vmax h = t.foldl vmax (vmax h a) := rfl
    rw [hstep]
    rcases ih (vmax h a) with he | hm
    · rcases vmax_cases h a with hc | hc
      · exact Or.inl (by rw [he, hc])
      · exact Or.inr (by rw [he, hc]; exact List.mem_cons_self a t)
    · exact Or.inr (List.mem_cons_of_mem a hm)

theorem vmaxList_ge {l : List V} {v : V} (hv : v ∈ l) : vval v ≤ vval (vmaxList l) := by
  cases l with
  | nil => cases hv
  | cons h t =>
    rcases List.mem_cons.mp hv with he | hm
    · subst he; exact foldl_vmax_ge_init t v
    · exact foldl_vmax_ge t h v hm

theorem vmaxList_mem {l : List V} (h : l ≠ []) : vmaxList l ∈ l := by
  cases l with
  | nil => exact absurd rfl h
  | cons a t =>
    show t.foldl vmax a ∈ a :: t
    rcases foldl_vmax_mem t a with he | hm
    · rw [he]; exact List.mem_cons_self a t
    · exact List.mem_cons_of_mem a hm

theorem grid_loc_lt {H W y x : ℕ} (hy : y < H) (hx : x < W) : W * y + x < H * W := by
  have h1 : W * y + x < W * y + W := by omega
  have h2 : W * y + W = W * (y + 1) := by ring
  have h3 : W * (y + 1) ≤ W * H := Nat.mul_le_mul_left W hy
  have h4 : W * H = H * W := Nat.mul_comm W H
  omega

theorem grid_loc_div {W y x : ℕ} (hx : x < W) : (W * y + x) / W = y := by
  rw [Nat.mul_add_div (by omega), Nat.div_eq_of_lt hx]
  omega

theorem grid_loc_mod {W y x : ℕ} (hx : x < W) : (W * y + x) % W = x := by
  rw [Nat.mul_add_mod]
  exact Nat.mod_eq_of_lt hx

theorem mem_gridVals {mask : Mask} {field : ℕ → ℕ → V} {y x : ℕ}
    (hy : y < mask.H) (hx : x < mask.W) : field y x ∈ gridVals mask field := by
  unfold gridVals
  rw [List.mem_map]
  refine ⟨mask.W * y + x, List.mem_range.mpr (grid_loc_lt hy hx), ?_⟩
  rw [grid_loc_div hx, grid_loc_mod hx]

theorem fieldMax_ge (mask : Mask) (field : ℕ → ℕ → V) {y x : ℕ}
    (hy : y < mask.H) (hx : x < mask.W) :
    vval (field y x) ≤ vval (fieldMax mask field) :=
  vmaxList_ge (mem_gridVals hy hx)

theorem fieldMax_attained (mask : Mask) (field : ℕ → ℕ → V) (h : 0 < mask.H * mask.W) :
    ∃ y x, y < mask.H ∧ x < mask.W ∧ fieldMax mask field = field y x := by
  have hne : gridVals mask field ≠ [] := by
    unfold gridVals
    intro hc
    rw [List.map_eq_nil_iff, List.range_eq_nil] at hc
    omega
  have hmem := vmaxList_mem hne
  unfold gridVals at hmem
  rw [List.mem_map] at hmem
  rcases hmem with ⟨loc, hloc, hval⟩
  have hW : 0 < mask.W := by
    rcases Nat.eq_zero_or_pos mask.W with h0 | h0
    · rw [h0] at h; omega
    · exact h0
  refine ⟨loc / mask.W, loc % mask.W, ?_, Nat.mod_lt _ hW, hval.symm⟩
  have h5 : loc < mask.W * mask.H := by
    rw [Nat.mul_comm]
    exact List.mem_range.mp hloc
  exact Nat.div_lt_of_lt_mul h5

theorem filter_length_le_of {α : Type} {l : List α} {f g : α → Bool}
    (hmono : ∀ i ∈ l, g i = true → f i = true) :
    (l.filter g).length ≤ (l.filter f).length := by
  induction l with
  | nil => exact le_refl _
  | cons a t ih =>
    have ih2 := ih (fun i hi hg => hmono i (List.mem_cons_of_mem a hi) hg)
    by_cases hg : g a = true
    · have hf := hmono a (List.mem_cons_self a t) hg
      rw [List.filter_cons_of_pos hg, List.filter_cons_of_pos hf]
      simpa using ih2
    · rw [List.filter_cons_of_neg hg]
      by_cases hf : f a = true
      · rw [List.filter_cons_of_pos hf]
        simp only [List.length_cons]
        omega
      · rw [List.filter_cons_of_neg hf]
        exact ih2

theorem filter_length_lt_of {α : Type} {l : List α} {f g : α → Bool}
    (hmono : ∀ i ∈ l, g i = true → f i = true) {i0 : α} (hi0 : i0 ∈ l)
    (hf0 : f i0 = true) (hg0 : g i0 = false) :
    (l.filter g).length < (l.filter f).length := by
  induction l with
  | nil => cases hi0
  | cons a t ih =>
    have hmono2 : ∀ i ∈ t, g i = true → f i = true :=
      fun i hi hg => hmono i (List.mem_cons_of_mem a hi) hg
    have hle := filter_length_le_of hmono2
    rcases List.mem_cons.mp hi0 with he | hm
    · subst he
      rw [List.filter_cons_of_pos hf0, List.filter_cons_of_neg (by rw [hg0]; exact Bool.false_ne_true)]
      simp only [List.length_cons]
      omega
    · have ih2 := ih hmono2 hm
      by_cases hg : g a = true
      · rw [List.filter_cons_of_pos hg,
          List.filter_cons_of_pos (hmono a (List.mem_cons_self a t) hg)]
        simpa using ih2
      · rw [List.filter_cons_of_neg hg]
        by_cases hf : f a = true
        · rw [List.filter_cons_of_pos hf]
          simp only [List.length_cons]
          omega
        · rw [List.filter_cons_of_neg hf]
          exact ih2

theorem sqDist_castR (y x i j : ℕ) :
    ((sqDist y x i j : ℕ) : ℝ) = ((y : ℝ) - (i : ℝ)) ^ 2 + ((x : ℝ) - (j : ℝ)) ^ 2 := by
  unfold sqDist
  push_cast [Int.cast_natAbs]
  rw [sq_abs, sq_abs]

theorem sqDist_symm (y x i j : ℕ) : sqDist y x i j = sqDist i j y x := by
  unfold sqDist
  have h1 : ((y : ℤ) - i).natAbs = ((i : ℤ) - y).natAbs := by omega
  have h2 : ((x : ℤ) - j).natAbs = ((j : ℤ) - x).natAbs := by omega
  rw [h1, h2]

theorem pdist_nonneg (y x i j : ℕ) : 0 ≤ pdist y x i j := Real.sqrt_nonneg _

theorem pdist_symm (y x i j : ℕ) : pdist y x i j = pdist i j y x := by
  unfold pdist
  rw [sqDist_symm]

theorem natAbs_y_le_pdist (y x i j : ℕ) :
    ((((y : ℤ) - (i : ℤ)).natAbs : ℕ) : ℝ) ≤ pdist y x i j := by
  unfold pdist
  have h1 : (((((y : ℤ) - (i : ℤ)).natAbs : ℕ) : ℝ)) ^ 2 ≤ ((sqDist y x i j : ℕ) : ℝ) := by
    unfold sqDist
    push_cast
    nlinarith [sq_nonneg (((x : ℤ) - (j : ℤ)).natAbs : ℝ)]
  have h2 := Real.sqrt_le_sqrt h1
  rwa [Real.sqrt_sq (Nat.cast_nonneg _)] at h2

theorem natAbs_x_le_pdist (y x i j : ℕ) :
    ((((x : ℤ) - (j : ℤ)).natAbs : ℕ) : ℝ) ≤ pdist y x i j := by
  unfold pdist
  have h1 : (((((x : ℤ) - (j : ℤ)).natAbs : ℕ) : ℝ)) ^ 2 ≤ ((sqDist y x i j : ℕ) : ℝ) := by
    unfold sqDist
    push_cast
    nlinarith [sq_nonneg (((y : ℤ) - (i : ℤ)).natAbs : ℝ)]
  have h2 := Real.sqrt_le_sqrt h1
  rwa [Real.sqrt_sq (Nat.cast_nonneg _)] at h2

theorem erosionFg_false_iff (m i j : ℕ) : erosionFg m i j = false ↔ (i = m ∧ j = m) := by
  unfold erosionFg
  simp

theorem erosion_edtSq (m i j : ℕ) :
    edtSq (1 + 2 * m) (1 + 2 * m) (erosionFg m) i j = sqDist i j m m := by
  have hm : m < 1 + 2 * m := by omega
  have hfg : erosionFg m m m = false := (erosionFg_false_iff m m m).mpr ⟨rfl, rfl⟩
  have hle := @edtSq_le (1 + 2 * m) (1 + 2 * m) (erosionFg m) i j m m hm hm hfg
  rcases @edtSq_attained (1 + 2 * m) (1 + 2 * m) (erosionFg m) i j m m hm hm hfg with
    ⟨i2, j2, _, _, hfg2, heq⟩
  rcases (erosionFg_false_iff m i2 j2).mp hfg2 with ⟨hi2, hj2⟩
  subst hi2; subst hj2
  omega

theorem erosionVal_eq (m : ℕ) (rq : Q) (i j : ℕ) :
    vval (erosionVal m rq i j) = Real.sqrt ((sqDist i j m m : ℕ) : ℝ) - qval rq := by
  unfold erosionVal
  rw [vval_vsubQ, erosion_edtSq]
  unfold vval
  simp

theorem winCondIff (Hh Ww m y x gy gx : ℕ) (hy : y < Hh) (hx : x < Ww) :
    ((if (y : ℤ) - (m : ℤ) < 0 then 0 else (y : ℤ) - (m : ℤ)) ≤ (gy : ℤ) ∧
      (gy : ℤ) < (if (y : ℤ) + (m : ℤ) + 1 > (Hh : ℤ) then (Hh : ℤ) else (y : ℤ) + (m : ℤ) + 1) ∧
      (if (x : ℤ) - (m : ℤ) < 0 then 0 else (x : ℤ) - (m : ℤ)) ≤ (gx : ℤ) ∧
      (gx : ℤ) < (if (x : ℤ) + (m : ℤ) + 1 > (Ww : ℤ) then (Ww : ℤ) else (x : ℤ) + (m : ℤ) + 1)) ↔
    (gy < Hh ∧ gx < Ww ∧ ((gy : ℤ) - (y : ℤ)).natAbs ≤ m ∧ ((gx : ℤ) - (x : ℤ)).natAbs ≤ m) := by
  split_ifs <;> omega

/-- Membership in the claim's update window: the square of half-width
`⌈r + Rmax⌉` centred on `(y, x)`, clipped to the field's bounds. -/
theorem repairField_in (mask : Mask) (field : ℕ → ℕ → V) (Rmax : V) (y x : ℕ) (rq : Q)
    (hy : y < mask.H) (hx : x < mask.W) (gy gx : ℕ)
    (hwin : gy < mask.H ∧ gx < mask.W ∧
      ((gy : ℤ) - (y : ℤ)).natAbs ≤ repairHW Rmax rq ∧
      ((gx : ℤ) - (x : ℤ)).natAbs ≤ repairHW Rmax rq) :
    repairField mask field Rmax y x rq gy gx =
      vmin (field gy gx)
        (erosionVal (repairHW Rmax rq) rq ((gy : ℤ) - (y : ℤ) + repairHW Rmax rq).toNat
          ((gx : ℤ) - (x : ℤ) + repairHW Rmax rq).toNat) := by
  simp only [repairField]
  rw [if_pos ((winCondIff mask.H mask.W (repairHW Rmax rq) y x gy gx hy hx).mpr hwin)]
  have e1 : ((if (y : ℤ) - (repairHW Rmax rq : ℤ) < 0 then -((y : ℤ) - (repairHW Rmax rq : ℤ))
        else 0) +
      ((gy : ℤ) - (if (y : ℤ) - (repairHW Rmax rq : ℤ) < 0 then 0
        else (y : ℤ) - (repairHW Rmax rq : ℤ)))) =
      (gy : ℤ) - (y : ℤ) + (repairHW Rmax rq : ℤ) := by
    split_ifs <;> omega
  have e2 : ((if (x : ℤ) - (repairHW Rmax rq : ℤ) < 0 then -((x : ℤ) - (repairHW Rmax rq : ℤ))
        else 0) +
      ((gx : ℤ) - (if (x : ℤ) - (repairHW Rmax rq : ℤ) < 0 then 0
        else (x : ℤ) - (repairHW Rmax rq : ℤ)))) =
      (gx : ℤ) - (x : ℤ) + (repairHW Rmax rq : ℤ) := by
    split_ifs <;> omega
  rw [e1, e2]

theorem repairField_out (mask : Mask) (field : ℕ → ℕ → V) (Rmax : V) (y x : ℕ) (rq : Q)
    (hy : y < mask.H) (hx : x < mask.W) (gy gx : ℕ)
    (hnot : ¬(gy < mask.H ∧ gx < mask.W ∧
      ((gy : ℤ) - (y : ℤ)).natAbs ≤ repairHW Rmax rq ∧
      ((gx : ℤ) - (x : ℤ)).natAbs ≤ repairHW Rmax rq)) :
    repairField mask field Rmax y x rq gy gx = field gy gx := by
  simp only [repairField]
  rw [if_neg (fun hc =>
    hnot ((winCondIff mask.H mask.W (repairHW Rmax rq) y x gy gx hy hx).mp hc))]

theorem repairField_val_in (mask : Mask) (field : ℕ → ℕ → V) (Rmax : V) (y x : ℕ) (rq : Q)
    (hy : y < mask.H) (hx : x < mask.W) (gy gx : ℕ)
    (hwin : gy < mask.H ∧ gx < mask.W ∧
      ((gy : ℤ) - (y : ℤ)).natAbs ≤ repairHW Rmax rq ∧
      ((gx : ℤ) - (x : ℤ)).natAbs ≤ repairHW Rmax rq) :
    vval (repairField mask field Rmax y x rq gy gx) =
      min (vval (field gy gx)) (pdist gy gx y x - qval rq) := by
  rw [repairField_in mask field Rmax y x rq hy hx gy gx hwin, vval_vmin, erosionVal_eq]
  have hiy : (((((gy : ℤ) - (y : ℤ) + repairHW Rmax rq).toNat : ℕ)) : ℤ) =
      (gy : ℤ) - (y : ℤ) + repairHW Rmax rq := by
    apply Int.toNat_of_nonneg
    omega
  have hjx : (((((gx : ℤ) - (x : ℤ) + repairHW Rmax rq).toNat : ℕ)) : ℤ) =
      (gx : ℤ) - (x : ℤ) + repairHW Rmax rq := by
    apply Int.toNat_of_nonneg
    omega
  have hsq : sqDist ((gy : ℤ) - (y : ℤ) + repairHW Rmax rq).toNat
      ((gx : ℤ) - (x : ℤ) + repairHW Rmax rq).toNat (repairHW Rmax rq) (repairHW Rmax rq) =
      sqDist gy gx y x := by
    unfold sqDist
    rw [hiy, hjx]
    have e1 : (gy : ℤ) - (y : ℤ) + repairHW Rmax rq - repairHW Rmax rq = (gy : ℤ) - y := by ring
    have e2 : (gx : ℤ) - (x : ℤ) + repairHW Rmax rq - repairHW Rmax rq = (gx : ℤ) - x := by ring
    rw [e1, e2]
  rw [hsq]
  rfl

theorem repairField_le (mask : Mask) (field : ℕ → ℕ → V) (Rmax : V) (y x : ℕ) (rq : Q)
    (gy gx : ℕ) :
    vval (repairField mask field Rmax y x rq gy gx) ≤ vval (field gy gx) := by
  simp only [repairField]
  split_ifs <;> first
    | (rw [vval_vmin]; exact min_le_left _ _)
    | exact le_refl _

theorem hw_lt (Rmax : V) (rq : Q) : vval Rmax + qval rq < (repairHW Rmax rq : ℝ) + 1 := by
  have h1 : vval (vaddQ Rmax rq) ≤ (⌈vval (vaddQ Rmax rq)⌉ : ℝ) := Int.le_ceil _
  have h2 : (⌈vval (vaddQ Rmax rq)⌉ : ℤ) ≤ ((⌈vval (vaddQ Rmax rq)⌉).toNat : ℤ) :=
    Int.self_le_toNat _
  have h2R : ((⌈vval (vaddQ Rmax rq)⌉ : ℤ) : ℝ) ≤ (((⌈vval (vaddQ Rmax rq)⌉).toNat : ℕ) : ℝ) := by
    exact_mod_cast h2
  have h3 : repairHW Rmax rq = (⌈vval (vaddQ Rmax rq)⌉).toNat := by
    unfold repairHW
    rw [vceil_eq]
  have hv : vval (vaddQ Rmax rq) = vval Rmax + qval rq := vval_vaddQ _ _
  rw [h3, ← hv]
  linarith

theorem repairField_sep (mask : Mask) (field : ℕ → ℕ → V) (Rmax : V) (y x : ℕ) (rq : Q)
    (hy : y < mask.H) (hx : x < mask.W)
    (hb : ∀ gy gx, gy < mask.H → gx < mask.W → vval (field gy gx) ≤ vval Rmax)
    (gy gx : ℕ) (hgy : gy < mask.H) (hgx : gx < mask.W) :
    vval (repairField mask field Rmax y x rq gy gx) ≤ pdist gy gx y x - qval rq := by
  by_cases hwin : gy < mask.H ∧ gx < mask.W ∧
      ((gy : ℤ) - (y : ℤ)).natAbs ≤ repairHW Rmax rq ∧
      ((gx : ℤ) - (x : ℤ)).natAbs ≤ repairHW Rmax rq
  · rw [repairField_val_in mask field Rmax y x rq hy hx gy gx hwin]
    exact min_le_right _ _
  · rw [repairField_out mask field Rmax y x rq hy hx gy gx hwin]
    have hout : repairHW Rmax rq < ((gy : ℤ) - (y : ℤ)).natAbs ∨
        repairHW Rmax rq < ((gx : ℤ) - (x : ℤ)).natAbs := by
      by_contra hcon
      push_neg at hcon
      exact hwin ⟨hgy, hgx, hcon.1, hcon.2⟩
    have hple : ((repairHW Rmax rq : ℕ) : ℝ) + 1 ≤ pdist gy gx y x := by
      rcases hout with hcase | hcase
      · have hc1 : ((repairHW Rmax rq : ℕ) : ℝ) + 1 ≤ ((((gy : ℤ) - (y : ℤ)).natAbs : ℕ) : ℝ) := by
          exact_mod_cast hcase
        linarith [natAbs_y_le_pdist gy gx y x]
      · have hc1 : ((repairHW Rmax rq : ℕ) : ℝ) + 1 ≤ ((((gx : ℤ) - (x : ℤ)).natAbs : ℕ) : ℝ) := by
          exact_mod_cast hcase
        linarith [natAbs_x_le_pdist gy gx y x]
    have hb2 := hb gy gx hgy hgx
    have hw := hw_lt Rmax rq
    linarith

theorem insertCircle_placed_spec {ps : Ps} {st : St} {r : V} {st2 : St}
    (h : insertCircle ps st r = .placed st2) :
    ∃ loc rq,
      loc < ps.mask.H * ps.mask.W ∧
      vle (vaddQ r ps.margin) (st.field (loc / ps.mask.W) (loc % ps.mask.W)) = true ∧
      vtoQ r = some rq ∧
      st2.circles = st.circles ++ [⟨loc / ps.mask.W, loc % ps.mask.W, r, maskFlat ps.mask loc⟩] ∧
      st2.field = repairField ps.mask st.field st.Rmax (loc / ps.mask.W) (loc % ps.mask.W) rq ∧
      st2.Rmax = st.Rmax ∧ st2.rng = st.rng + 1 := by
  unfold insertCircle at h
  cases hc : candidates ps st.field r with
  | nil => rw [hc] at h; cases h
  | cons l0 ls =>
    rw [hc] at h
    simp only at h
    cases hv : vtoQ r with
    | none => rw [hv] at h; cases h
    | some rq =>
      rw [hv] at h
      injection h with h
      subst h
      refine ⟨(l0 :: ls).get ⟨ps.choice st.rng % (l0 :: ls).length, Nat.mod_lt _ (Nat.succ_pos _)⟩,
        rq, ?_, ?_, rfl, rfl, rfl, rfl, rfl⟩
      all_goals
        have hmem : (l0 :: ls).get ⟨ps.choice st.rng % (l0 :: ls).length,
            Nat.mod_lt _ (Nat.succ_pos _)⟩ ∈ (l0 :: ls) := (l0 :: ls).get_mem _ _
      all_goals
        have hmem2 : (l0 :: ls).get ⟨ps.choice st.rng % (l0 :: ls).length,
            Nat.mod_lt _ (Nat.succ_pos _)⟩ ∈ candidates ps st.field r := by
          rw [hc]; exact hmem
      · exact List.mem_range.mp (List.mem_filter.mp hmem2).1
      · exact (List.mem_filter.mp hmem2).2

theorem vlt_false_iff {a b : V} : vlt a b = false ↔ vval b ≤ vval a := by
  unfold vlt
  rw [Bool.not_eq_false']
  exact vle_iff

theorem loc_div_lt {H W loc : ℕ} (hloc : loc < H * W) : loc / W < H := by
  have hW : 0 < W := by
    rcases Nat.eq_zero_or_pos W with h0 | h0
    · rw [h0, Nat.mul_zero] at hloc; omega
    · exact h0
  apply Nat.div_lt_of_lt_mul
  rw [Nat.mul_comm]
  exact hloc

theorem loc_mod_lt {H W loc : ℕ} (hloc : loc < H * W) : loc % W < W := by
  have hW : 0 < W := by
    rcases Nat.eq_zero_or_pos W with h0 | h0
    · rw [h0, Nat.mul_zero] at hloc; omega
    · exact h0
  exact Nat.mod_lt _ hW

theorem insert_inv {ps : Ps} {st : St} {r : V} {st2 : St}
    (h : insertCircle ps st r = .placed st2) (hI : Inv ps st) : Inv ps st2 := by
  obtain ⟨loc, rq, hloc, hcand, hv, hcirc, hfield, hRmax, _⟩ := insertCircle_placed_spec h
  have hy : loc / ps.mask.W < ps.mask.H := loc_div_lt hloc
  have hx : loc % ps.mask.W < ps.mask.W := loc_mod_lt hloc
  have hrv : vval r = qval rq := vtoQ_sound hv
  have hcand2 : vval r + qval ps.margin ≤ vval (st.field (loc / ps.mask.W) (loc % ps.mask.W)) := by
    have := vle_iff.mp hcand
    rwa [vval_vaddQ] at this
  constructor
  · intro gy gx hgy hgx
    rw [hfield, hRmax]
    exact le_trans (repairField_le _ _ _ _ _ _ _ _) (hI.bound gy gx hgy hgx)
  · intro c hc gy gx hgy hgx
    rw [hfield]
    rw [hcirc] at hc
    rcases List.mem_append.mp hc with hold | hnew
    · exact le_trans (repairField_le _ _ _ _ _ _ _ _) (hI.sep c hold gy gx hgy hgx)
    · have hceq : c = ⟨loc / ps.mask.W, loc % ps.mask.W, r, maskFlat ps.mask loc⟩ := by
        simpa using hnew
      subst hceq
      show vval (repairField ps.mask st.field st.Rmax (loc / ps.mask.W) (loc % ps.mask.W) rq gy gx) ≤
        pdist gy gx (loc / ps.mask.W) (loc % ps.mask.W) - vval r
      rw [hrv]
      exact repairField_sep ps.mask st.field st.Rmax _ _ rq hy hx hI.bound gy gx hgy hgx
  · rw [hcirc]
    rw [List.pairwise_append]
    refine ⟨hI.pair, List.pairwise_singleton _ _, ?_⟩
    intro c hc d hd
    have hd2 : d = ⟨loc / ps.mask.W, loc % ps.mask.W, r, maskFlat ps.mask loc⟩ := by
      simpa using hd
    subst hd2
    have hsep := hI.sep c hc (loc / ps.mask.W) (loc % ps.mask.W) hy hx
    have hps := pdist_symm (loc / ps.mask.W) (loc % ps.mask.W) c.y c.x
    show qval ps.margin + vval c.r + vval r ≤
      pdist c.y c.x (loc / ps.mask.W) (loc % ps.mask.W)
    rw [← hps]
    linarith
  · intro c hc
    rw [hcirc] at hc
    rcases List.mem_append.mp hc with hold | hnew
    · exact hI.inBounds c hold
    · have hceq : c = ⟨loc / ps.mask.W, loc % ps.mask.W, r, maskFlat ps.mask loc⟩ := by
        simpa using hnew
      subst hceq
      exact ⟨hy, hx, rfl⟩

theorem refresh_inv {ps : Ps} {st : St} (hI : Inv ps st) :
    Inv ps ⟨st.field, st.circles, fieldMax ps.mask st.field, st.rng⟩ := by
  constructor
  · intro y x hy hx
    exact fieldMax_ge ps.mask st.field hy hx
  · exact hI.sep
  · exact hI.pair
  · exact hI.inBounds

theorem innerLoop_inv {ps : Ps} :
    ∀ (fuel : ℕ) (st st2 : St), innerLoop ps fuel st = .ok st2 → Inv ps st → Inv ps st2 := by
  intro fuel
  induction fuel with
  | zero => intro st st2 h; cases h
  | succ fuel ih =>
    intro st st2 h hI
    unfold innerLoop at h
    cases hins : insertCircle ps st (vsubQ st.Rmax ps.margin) with
    | noSpace => rw [hins] at h; injection h with h; rw [← h]; exact hI
    | numFail => rw [hins] at h; cases h
    | placed st3 =>
      rw [hins] at h
      exact ih st3 st2 h (insert_inv hins hI)

theorem outerLoop_inv {ps : Ps} {Rmin : Q} :
    ∀ (fuel : ℕ) (st st2 : St), outerLoop ps Rmin fuel st = .ok st2 → Inv ps st → Inv ps st2 := by
  intro fuel
  induction fuel with
  | zero => intro st st2 h; cases h
  | succ fuel ih =>
    intro st st2 h hI
    unfold outerLoop at h
    by_cases hg : vle (vofQ (qadd Rmin ps.margin)) st.Rmax = true
    · rw [if_pos hg] at h
      cases hin : innerLoop ps (ps.mask.H * ps.mask.W + 1) st with
      | error e => rw [hin] at h; cases h
      | ok st3 =>
        rw [hin] at h
        exact ih _ st2 h (refresh_inv (innerLoop_inv _ st st3 hin hI))
    · rw [if_neg hg] at h
      injection h with h
      rw [← h]
      exact hI

theorem fixedLoop_inv {ps : Ps} {Rmin rsmall : Q} :
    ∀ (rs : List Q) (st st2 : St), fixedLoop ps Rmin rsmall rs st = .ok st2 → Inv ps st → Inv ps st2 := by
  intro rs
  induction rs with
  | nil => intro st st2 h hI; injection h with h; rw [← h]; exact hI
  | cons r rest ih =>
    intro st st2 h hI
    unfold fixedLoop at h
    by_cases h1 : vle (vofQ (qadd Rmin ps.margin)) st.Rmax = true
    · rw [h1] at h
      by_cases h2 : vle (vofQ (qadd r ps.margin)) st.Rmax = true
      · rw [h2] at h
        simp only [Bool.not_true, Bool.false_eq_true, if_false] at h
        cases hins : insertCircle ps st (vofQ r) with
        | noSpace =>
          rw [hins] at h
          exact ih _ st2 h (refresh_inv hI)
        | numFail => rw [hins] at h; cases h
        | placed st3 =>
          rw [hins] at h
          exact ih st3 st2 h (insert_inv hins hI)
      · rw [Bool.of_not_eq_true h2] at h
        simp only [Bool.not_false, if_true] at h
        by_cases h3 : vle (vofQ (qadd rsmall ps.margin)) st.Rmax = true
        · rw [h3] at h
          simp only [Bool.not_true, Bool.false_eq_true, if_false] at h
          exact ih st st2 h hI
        · rw [Bool.of_not_eq_true h3] at h
          simp only [Bool.not_false, if_true] at h
          injection h with h
          rw [← h]
          exact hI
    · rw [Bool.of_not_eq_true h1] at h
      simp only [Bool.not_false, if_true] at h
      injection h with h
      rw [← h]
      exact hI

theorem inv_empty_circles {ps : Ps} {st : St}
    (hb : ∀ y x, y < ps.mask.H → x < ps.mask.W → vval (st.field y x) ≤ vval st.Rmax)
    (hc : st.circles = []) : Inv ps st := by
  constructor
  · exact hb
  · intro c hcm
    rw [hc] at hcm
    exact absurd hcm (List.not_mem_nil c)
  · rw [hc]
    exact List.Pairwise.nil
  · intro c hcm
    rw [hc] at hcm
    exact absurd hcm (List.not_mem_nil c)

theorem packMain_inv {ps : Ps} {greedy : Bool} {Rmin1 Rmax1 : Q} {sorted : List Q}
    {rd : Bool} {out : PackOut} {ns : List Notice}
    (h : packMain ps greedy Rmin1 Rmax1 sorted rd = .ok (out, ns)) :
    out.circles = [] ∨ ∃ st2, Inv ps st2 ∧ out.circles = st2.circles := by
  simp only [packMain] at h
  by_cases h1 : vlt (fieldMax ps.mask (initField ps.mask)) (vofQ (clampRmin Rmin1)) = true
  · rw [if_pos h1] at h
    injection h with h
    left
    have h2 := congrArg Prod.fst h
    simp only at h2
    rw [← h2]
    rfl
  · rw [if_neg h1] at h
    have hmain : ∀ (st0 : St), Inv ps st0 →
        (∀ stF, (if greedy then outerLoop ps (clampRmin Rmin1) (ps.mask.H * ps.mask.W + 2) st0
            else fixedLoop ps (clampRmin Rmin1) (sorted.headD (qofInt 0)) sorted.reverse st0) =
            .ok stF → Inv ps stF) := by
      intro st0 hI stF hrun
      cases greedy with
      | true =>
        rw [if_pos rfl] at hrun
        exact outerLoop_inv _ _ _ hrun hI
      | false =>
        rw [if_neg Bool.false_ne_true] at hrun
        exact fixedLoop_inv _ _ _ hrun hI
    by_cases h2 : vlt (fieldMax ps.mask (initField ps.mask)) (vofQ Rmax1) = true
    · rw [if_pos h2] at h
      have hI0 : Inv ps ⟨initField ps.mask, [], fieldMax ps.mask (initField ps.mask), 0⟩ :=
        inv_empty_circles (fun y x hy hx => fieldMax_ge ps.mask (initField ps.mask) hy hx) rfl
      cases hrun : (if greedy then outerLoop ps (clampRmin Rmin1) (ps.mask.H * ps.mask.W + 2)
          ⟨initField ps.mask, [], fieldMax ps.mask (initField ps.mask), 0⟩
        else fixedLoop ps (clampRmin Rmin1) (sorted.headD (qofInt 0)) sorted.reverse
          ⟨initField ps.mask, [], fieldMax ps.mask (initField ps.mask), 0⟩) with
      | error e => rw [hrun] at h; cases h
      | ok stF =>
        rw [hrun] at h
        right
        refine ⟨stF, hmain _ hI0 stF hrun, ?_⟩
        cases rd with
        | true =>
          simp only [] at h
          rw [if_pos trivial] at h
          injection h with h
          have h3 := congrArg Prod.fst h
          simp only at h3
          rw [← h3]
          rfl
        | false =>
          simp only [] at h
          rw [if_neg Bool.false_ne_true] at h
          injection h with h
          have h3 := congrArg Prod.fst h
          simp only at h3
          rw [← h3]
          rfl
    · rw [if_neg h2] at h
      have hI0 : Inv ps ⟨fun y x => if vlt (vofQ Rmax1) (initField ps.mask y x) then vofQ Rmax1
          else initField ps.mask y x, [], vofQ Rmax1, 0⟩ := by
        apply inv_empty_circles _ rfl
        intro y x hy hx
        show vval (if vlt (vofQ Rmax1) (initField ps.mask y x) then vofQ Rmax1
          else initField ps.mask y x) ≤ vval (vofQ Rmax1)
        by_cases hc : vlt (vofQ Rmax1) (initField ps.mask y x) = true
        · rw [if_pos hc]
        · rw [if_neg hc]
          exact vlt_false_iff.mp (Bool.of_not_eq_true hc)
      cases hrun : (if greedy then outerLoop ps (clampRmin Rmin1) (ps.mask.H * ps.mask.W + 2)
          ⟨fun y x => if vlt (vofQ Rmax1) (initField ps.mask y x) then vofQ Rmax1
            else initField ps.mask y x, [], vofQ Rmax1, 0⟩
        else fixedLoop ps (clampRmin Rmin1) (sorted.headD (qofInt 0)) sorted.reverse
          ⟨fun y x => if vlt (vofQ Rmax1) (initField ps.mask y x) then vofQ Rmax1
            else initField ps.mask y x, [], vofQ Rmax1, 0⟩) with
      | error e => rw [hrun] at h; cases h
      | ok stF =>
        rw [hrun] at h
        right
        refine ⟨stF, hmain _ hI0 stF hrun, ?_⟩
        cases rd with
        | true =>
          simp only [] at h
          rw [if_pos trivial] at h
          injection h with h
          have h3 := congrArg Prod.fst h
          simp only at h3
          rw [← h3]
          rfl
        | false =>
          simp only [] at h
          rw [if_neg Bool.false_ne_true] at h
          injection h with h
          have h3 := congrArg Prod.fst h
          simp only at h3
          rw [← h3]
          rfl

theorem packCircles_inv {mask : Mask} {radii : Option (List Q)} {n : Option ℕ} {margin : Q}
    {rr : Q × Q} {g0 rd : Bool} {choice : ℕ → ℕ} {beta : ℕ → Q}
    {out : PackOut} {ns : List Notice}
    (h : packCircles mask radii n margin rr g0 rd choice beta = .ok (out, ns)) :
    out.circles = [] ∨ ∃ st2, Inv ⟨mask, margin, choice⟩ st2 ∧ out.circles = st2.circles := by
  simp only [packCircles] at h
  by_cases h1 : (¬g0 = true ∧ radii = none ∧ n = none)
  · rw [if_pos h1] at h
    cases h
  · rw [if_neg h1] at h
    cases radii with
    | some rs =>
      simp only [Option.isSome_some, if_pos] at h
      cases hs : qsortAsc rs with
      | nil => rw [hs] at h; cases h
      | cons r0 rest =>
        rw [hs] at h
        exact packMain_inv h
    | none =>
      simp only [Option.isSome_none] at h
      cases g0 with
      | true =>
        simp only [if_neg (Bool.false_ne_true), if_pos] at h
        exact packMain_inv h
      | false =>
        simp only [if_neg (Bool.false_ne_true)] at h
        cases hs : qsortAsc ((List.range (n.getD 0)).map
            (fun k => qadd (qmul rr.1 (qofNat (Nat.min mask.H mask.W)))
              (qmul (qsub (qmul rr.2 (qofNat (Nat.min mask.H mask.W)))
                (qmul rr.1 (qofNat (Nat.min mask.H mask.W)))) (beta k)))) with
        | nil => rw [hs] at h; cases h
        | cons r0 rest =>
          rw [hs] at h
          exact packMain_inv h

theorem repairHW_eq (Rmax : V) (rq : Q) :
    repairHW Rmax rq = (⌈vval Rmax + qval rq⌉).toNat := by
  unfold repairHW
  rw [vceil_eq, vval_vaddQ]

/-- C2: for every run of `pack_circles` (greedy or fixed-radii) and every
pair of distinct returned circles, the Euclidean distance between their
centres is at least the sum of their radii plus the margin.  This is the
exact inequality, which implies the claim's 1-pixel-tolerance version. -/
theorem claim_C2_no_overlap {mask : Mask} {radii : Option (List Q)} {n : Option ℕ}
    {margin : Q} {rr : Q × Q} {g0 rd : Bool} {choice : ℕ → ℕ} {beta : ℕ → Q}
    {out : PackOut} {ns : List Notice}
    (h : packCircles mask radii n margin rr g0 rd choice beta = .ok (out, ns))
    {i j : ℕ} (hi : i < out.circles.length) (hj : j < out.circles.length) (hij : i ≠ j) :
    vval (out.circles[i].r) + vval (out.circles[j].r) + qval margin ≤
      pdist (out.circles[i].y) (out.circles[i].x) (out.circles[j].y) (out.circles[j].x) := by
  rcases packCircles_inv h with hnil | ⟨st2, hI, hcs⟩
  · rw [hnil] at hi
    simp at hi
  · have hp := hI.pair
    rw [← hcs] at hp
    rw [List.pairwise_iff_getElem] at hp
    rcases Nat.lt_or_ge i j with hlt | hge
    · have h2 := hp i j hi hj hlt
      linarith
    · have hlt : j < i := by omega
      have h2 := hp j i hj hi hlt
      rw [pdist_symm] at h2
      linarith

set_option maxRecDepth 200000 in
set_option maxHeartbeats 2000000 in
/-- The concrete greedy run fully evaluated (shared by several witnesses):
with cap `n = 1` it nevertheless places two circles of radius 1 at (2,2)
and (2,5). -/
theorem greedyCapRun_val : greedyCapRun = .ok (.circlesOnly
    [⟨2, 2, ⟨0, ⟨-5, 5, by decide⟩⟩, 1⟩, ⟨2, 5, ⟨0, ⟨-5, 5, by decide⟩⟩, 1⟩], []) := rfl

/-- C2 witness: the two circles of the concrete greedy run are separated
by the sum of their radii plus the margin. -/
theorem claim_C2_no_overlap_witness :
    vval ((⟨2, 2, (⟨0, ⟨-5, 5, by decide⟩⟩ : V), 1⟩ : Circle).r) +
        vval ((⟨2, 5, (⟨0, ⟨-5, 5, by decide⟩⟩ : V), 1⟩ : Circle).r) + qval (qofInt 1) ≤
      pdist 2 2 2 5 := by
  have h0 := @claim_C2_no_overlap (onesMask 5 9) none (some 1) (qofInt 1)
    (⟨1, 5, by decide⟩, ⟨2, 5, by decide⟩) true false oracle0 beta0
    (.circlesOnly [⟨2, 2, ⟨0, ⟨-5, 5, by decide⟩⟩, 1⟩, ⟨2, 5, ⟨0, ⟨-5, 5, by decide⟩⟩, 1⟩])
    [] greedyCapRun_val 0 1
  exact h0 (by decide) (by decide) (by decide)

/-- C8: every returned circle's label equals the mask value at the circle's
centre pixel, and the centre is a valid mask pixel (so the label is a value
actually present in the boundary mask). -/
theorem claim_C8_labels {mask : Mask} {radii : Option (List Q)} {n : Option ℕ}
    {margin : Q} {rr : Q × Q} {g0 rd : Bool} {choice : ℕ → ℕ} {beta : ℕ → Q}
    {out : PackOut} {ns : List Notice}
    (h : packCircles mask radii n margin rr g0 rd choice beta = .ok (out, ns)) :
    ∀ c ∈ out.circles, c.y < mask.H ∧ c.x < mask.W ∧ c.label = mask.data c.y c.x := by
  intro c hc
  rcases packCircles_inv h with hnil | ⟨st2, hI, hcs⟩
  · rw [hnil] at hc
    exact absurd hc (List.not_mem_nil c)
  · rw [hcs] at hc
    exact hI.inBounds c hc

/-- C8 witness: the label facts hold for a circle of the concrete run. -/
theorem claim_C8_labels_witness :
    (⟨2, 2, (⟨0, ⟨-5, 5, by decide⟩⟩ : V), 1⟩ : Circle).y < (onesMask 5 9).H ∧
      (⟨2, 2, (⟨0, ⟨-5, 5, by decide⟩⟩ : V), 1⟩ : Circle).x < (onesMask 5 9).W ∧
      (⟨2, 2, (⟨0, ⟨-5, 5, by decide⟩⟩ : V), 1⟩ : Circle).label =
        (onesMask 5 9).data 2 2 := by
  have h0 := @claim_C8_labels (onesMask 5 9) none (some 1) (qofInt 1)
    (⟨1, 5, by decide⟩, ⟨2, 5, by decide⟩) true false oracle0 beta0
    (.circlesOnly [⟨2, 2, ⟨0, ⟨-5, 5, by decide⟩⟩, 1⟩, ⟨2, 5, ⟨0, ⟨-5, 5, by decide⟩⟩, 1⟩])
    [] greedyCapRun_val
  exact h0 _ (by decide)

/-- C4: each committed insertion only lowers the field — every pixel's
value after the repair is at most its value before. -/
theorem claim_C4_monotone {ps : Ps} {st : St} {r : V} {st2 : St}
    (h : insertCircle ps st r = .placed st2) :
    ∀ gy gx, vval (st2.field gy gx) ≤ vval (st.field gy gx) := by
  obtain ⟨loc, rq, _, _, _, _, hfield, _, _⟩ := insertCircle_placed_spec h
  intro gy gx
  rw [hfield]
  exact repairField_le _ _ _ _ _ _ _ _

/-- C4 witness: the monotonicity instantiated on a concrete insertion. -/
theorem claim_C4_monotone_witness :
    vval ((placedOf (insertCircle psW stW rW) stW).field 1 1) ≤ vval (stW.field 1 1) :=
  @claim_C4_monotone psW stW rW (placedOf (insertCircle psW stW rW) stW) rfl 1 1

/-- C3: after committing `(y, x, r)` (with `r` of rational value `rq`), the
repair sets every pixel of the clipped square window of half-width
`⌈r + Rmax⌉` centred on the circle to the minimum of the old value and
`dist − r`, and leaves every pixel outside that window unchanged — the
window-local and field-global coordinates agree after clipping. -/
theorem claim_C3_window {ps : Ps} {st : St} {r : V} {st2 : St} {c : Circle} {rq : Q}
    (h : insertCircle ps st r = .placed st2)
    (hc : st2.circles = st.circles ++ [c]) (hrq : vtoQ r = some rq)
    (gy gx : ℕ) (hgy : gy < ps.mask.H) (hgx : gx < ps.mask.W) :
    (((gy : ℤ) - (c.y : ℤ)).natAbs ≤ (⌈vval st.Rmax + qval rq⌉).toNat ∧
        ((gx : ℤ) - (c.x : ℤ)).natAbs ≤ (⌈vval st.Rmax + qval rq⌉).toNat →
      vval (st2.field gy gx) =
        min (vval (st.field gy gx)) (pdist gy gx c.y c.x - qval rq)) ∧
    (¬(((gy : ℤ) - (c.y : ℤ)).natAbs ≤ (⌈vval st.Rmax + qval rq⌉).toNat ∧
        ((gx : ℤ) - (c.x : ℤ)).natAbs ≤ (⌈vval st.Rmax + qval rq⌉).toNat) →
      st2.field gy gx = st.field gy gx) := by
  obtain ⟨loc, rq0, hloc, _, hv, hcirc, hfield, _, _⟩ := insertCircle_placed_spec h
  have hceq : c = ⟨loc / ps.mask.W, loc % ps.mask.W, r, maskFlat ps.mask loc⟩ := by
    rw [hcirc] at hc
    have h2 := List.append_cancel_left hc.symm
    injection h2 with h1
  have hrq0 : rq = rq0 := by
    rw [hv] at hrq
    injection hrq with h1
    exact h1.symm
  subst hrq0
  have hy2 : loc / ps.mask.W < ps.mask.H := loc_div_lt hloc
  have hx2 : loc % ps.mask.W < ps.mask.W := loc_mod_lt hloc
  have hcy : c.y = loc / ps.mask.W := by rw [hceq]
  have hcx : c.x = loc % ps.mask.W := by rw [hceq]
  have hhw : (⌈vval st.Rmax + qval rq⌉).toNat = repairHW st.Rmax rq := (repairHW_eq _ _).symm
  constructor
  · intro hwin
    rw [hcy, hcx, hhw] at hwin
    rw [hfield, hcy, hcx]
    exact repairField_val_in ps.mask st.field st.Rmax _ _ rq hy2 hx2 gy gx
      ⟨hgy, hgx, hwin.1, hwin.2⟩
  · intro hnot
    rw [hcy, hcx, hhw] at hnot
    rw [hfield]
    apply repairField_out ps.mask st.field st.Rmax _ _ rq hy2 hx2 gy gx
    intro hcon
    exact hnot ⟨hcon.2.2.1, hcon.2.2.2⟩

/-- C3 witness: the window equality instantiated on a concrete insertion,
at the in-window pixel (0, 1). -/
theorem claim_C3_window_witness :
    vval ((placedOf (insertCircle psW stW rW) stW).field 0 1) =
      min (vval (stW.field 0 1)) (pdist 0 1 0 0 - qval (qofInt 1)) := by
  have h0 := @claim_C3_window psW stW rW (placedOf (insertCircle psW stW rW) stW)
    ⟨0, 0, rW, 1⟩ (qofInt 1) rfl rfl rfl 0 1 (by decide) (by decide)
  have hcl : (⌈vval stW.Rmax + qval (qofInt 1)⌉).toNat = 3 := by
    have h1 : vval stW.Rmax = 2 := by
      show vval (vofQ (qofInt 2)) = 2
      rw [vval_ofQ, qval_ofInt]
      norm_num
    rw [h1, qval_ofInt]
    norm_num
    decide
  exact h0.1 (by rw [hcl]; exact ⟨by decide, by decide⟩)

/-- C1: code bug — in greedy mode the circle-count cap `n` is bound but
never consulted by the loop; the concrete run with `n = 1` returns two
circles. -/
theorem claim_C1_cap_ignored : (runCircles greedyCapRun).map List.length = some 2 := by
  rw [greedyCapRun_val]
  rfl

set_option maxRecDepth 200000 in
set_option maxHeartbeats 2000000 in
/-- The concrete fixed-radii run fully evaluated: `radii = [10, 2]` on a
9×9 mask places only the radius-2 circle (10 cannot fit and is skipped). -/
theorem fixedRadiiRun_val : fixedRadiiRun = .ok (.circlesOnly
    [⟨3, 3, vofQ (qofInt 2), 1⟩], [.reduceRmax]) := rfl

/-- C5 counterexample: the returned radii of the concrete fixed-radii run
are `[2]`, which is not a prefix of the requested radii sorted descending
(`[10, 2]`). -/
theorem claim_C5_not_prefix :
    (runCircles fixedRadiiRun).map (List.map Circle.r) = some [vofQ (qofInt 2)] ∧
      ¬ ([vofQ (qofInt 2)] <+: [vofQ (qofInt 10), vofQ (qofInt 2)]) := by
  constructor
  · rw [fixedRadiiRun_val]
    rfl
  · rintro ⟨t, ht⟩
    injection ht with h1 h2
    exact absurd h1 (by decide)

set_option maxRecDepth 40000 in
/-- C6: code bug — the infeasible-mask early return ignores
`return_dists`: with `return_dists = true` the run returns a bare empty
circle list instead of the `(circles, field)` pair. -/
theorem claim_C6_pair_dropped :
    runIsPair zeroMaskPairRun = false ∧ runCircles zeroMaskPairRun = some [] ∧
      runNotices zeroMaskPairRun = some [.subPixelRmin, .infeasible] :=
  ⟨rfl, rfl, rfl⟩

/-- C10: calling the packer with an explicitly empty radii sequence always
reaches the unguarded `radii[0]` and raises an uncaught IndexError (not a
ValueError), for every mask and parameter set. -/
theorem claim_C10_empty_radii (mask : Mask) (n : Option ℕ) (margin : Q) (rr : Q × Q)
    (g0 rd : Bool) (choice : ℕ → ℕ) (beta : ℕ → Q) :
    packCircles mask (some []) n margin rr g0 rd choice beta = .error .indexError := by
  simp only [packCircles]
  rw [if_neg (fun hcon => Option.noConfusion hcon.2.1)]
  rfl

set_option maxRecDepth 40000 in
/-- C10 on the concrete run. -/
theorem claim_C10_empty_radii_concrete : emptyRadiiRun = .error .indexError := rfl

/-- The infeasible early return of `pack_circles` (source line 101): when
the initial field's maximum is below the clamped `Rmin`, the run returns
`ok` with an empty circle list and the infeasibility warning — a bare
list, never an exception. -/
theorem packMain_infeasible {ps : Ps} {greedy : Bool} {Rmin1 Rmax1 : Q} {sorted : List Q}
    {rd : Bool}
    (h : vlt (fieldMax ps.mask (initField ps.mask)) (vofQ (clampRmin Rmin1)) = true) :
    packMain ps greedy Rmin1 Rmax1 sorted rd =
      .ok (.circlesOnly [],
        (if qlt Rmin1 (qofInt 1) = true then [Notice.subPixelRmin] else []) ++
          [Notice.infeasible]) := by
  simp only [packMain]
  rw [if_pos h]

/-- C9: in greedy mode, if the initial field's maximum is below the
clamped `Rmin`, the run returns `ok` (never an exception) with an empty
result and only warning-level notices, the last being the infeasibility
notice. -/
theorem claim_C9_infeasible {mask : Mask} {n : Option ℕ} {margin : Q} {rr : Q × Q}
    {rd : Bool} {choice : ℕ → ℕ} {beta : ℕ → Q}
    (h : vlt (fieldMax mask (initField mask))
      (vofQ (clampRmin (qmul rr.1 (qofNat (Nat.min mask.H mask.W))))) = true) :
    packCircles mask none n margin rr true rd choice beta =
      .ok (.circlesOnly [],
        (if qlt (qmul rr.1 (qofNat (Nat.min mask.H mask.W))) (qofInt 1) = true
          then [Notice.subPixelRmin] else []) ++ [Notice.infeasible]) := by
  simp only [packCircles]
  rw [if_neg (fun hcon => hcon.1 trivial)]
  simp only [Option.isSome_none]
  simp only [if_neg (Bool.false_ne_true), if_pos]
  exact packMain_infeasible h

theorem fixedLoop_sublist {ps : Ps} {Rmin rsmall : Q} :
    ∀ (rs : List Q) (st st2 : St), fixedLoop ps Rmin rsmall rs st = .ok st2 →
      ∃ tail, st2.circles = st.circles ++ tail ∧
        (tail.map Circle.r).Sublist (rs.map vofQ) := by
  intro rs
  induction rs with
  | nil =>
    intro st st2 h
    injection h with h
    exact ⟨[], by rw [← h]; simp, List.nil_sublist _⟩
  | cons r rest ih =>
    intro st st2 h
    unfold fixedLoop at h
    by_cases h1 : vle (vofQ (qadd Rmin ps.margin)) st.Rmax = true
    · rw [h1] at h
      by_cases h2 : vle (vofQ (qadd r ps.margin)) st.Rmax = true
      · rw [h2] at h
        simp only [Bool.not_true, Bool.false_eq_true, if_false] at h
        cases hins : insertCircle ps st (vofQ r) with
        | noSpace =>
          rw [hins] at h
          rcases ih _ st2 h with ⟨tail, hc, hsub⟩
          exact ⟨tail, hc, hsub.cons (vofQ r)⟩
        | numFail => rw [hins] at h; cases h
        | placed st3 =>
          rw [hins] at h
          rcases ih st3 st2 h with ⟨tail, hc, hsub⟩
          obtain ⟨loc, rq, _, _, _, hcirc, _, _, _⟩ := insertCircle_placed_spec hins
          refine ⟨⟨loc / ps.mask.W, loc % ps.mask.W, vofQ r, maskFlat ps.mask loc⟩ :: tail, ?_, ?_⟩
          · rw [hc, hcirc]
            simp
          · exact hsub.cons₂ (vofQ r)
      · rw [Bool.of_not_eq_true h2] at h
        simp only [Bool.not_false, if_true] at h
        by_cases h3 : vle (vofQ (qadd rsmall ps.margin)) st.Rmax = true
        · rw [h3] at h
          simp only [Bool.not_true, Bool.false_eq_true, if_false] at h
          rcases ih st st2 h with ⟨tail, hc, hsub⟩
          exact ⟨tail, hc, hsub.cons (vofQ r)⟩
        · rw [Bool.of_not_eq_true h3] at h
          simp only [Bool.not_false, if_true] at h
          injection h with h
          exact ⟨[], by rw [← h]; simp, List.nil_sublist _⟩
    · rw [Bool.of_not_eq_true h1] at h
      simp only [Bool.not_false, if_true] at h
      injection h with h
      exact ⟨[], by rw [← h]; simp, List.nil_sublist _⟩

theorem packMain_sublist {ps : Ps} {Rmin1 Rmax1 : Q} {sorted : List Q} {rd : Bool}
    {out : PackOut} {ns : List Notice}
    (h : packMain ps false Rmin1 Rmax1 sorted rd = .ok (out, ns)) :
    (out.circles.map Circle.r).Sublist (sorted.reverse.map vofQ) := by
  rcases packMain_inv h with hnil | _
  · rw [hnil]
    exact List.nil_sublist _
  · simp only [packMain] at h
    by_cases h1 : vlt (fieldMax ps.mask (initField ps.mask)) (vofQ (clampRmin Rmin1)) = true
    · rw [if_pos h1] at h
      injection h with h
      have h2 := congrArg Prod.fst h
      simp only at h2
      rw [← h2]
      exact List.nil_sublist _
    · rw [if_neg h1] at h
      by_cases h2 : vlt (fieldMax ps.mask (initField ps.mask)) (vofQ Rmax1) = true
      · rw [if_pos h2] at h
        rw [if_neg Bool.false_ne_true] at h
        cases hrun : fixedLoop ps (clampRmin Rmin1) (sorted.headD (qofInt 0)) sorted.reverse
            ⟨initField ps.mask, [], fieldMax ps.mask (initField ps.mask), 0⟩ with
        | error e => rw [hrun] at h; cases h
        | ok stF =>
          rw [hrun] at h
          rcases fixedLoop_sublist _ _ _ hrun with ⟨tail, hc, hsub⟩
          simp only [List.nil_append] at hc
          have hout : out.circles = stF.circles := by
            cases rd with
            | true =>
              simp only [] at h
              rw [if_pos trivial] at h
              injection h with h
              have h3 := congrArg Prod.fst h
              simp only at h3
              rw [← h3]
              rfl
            | false =>
              simp only [] at h
              rw [if_neg Bool.false_ne_true] at h
              injection h with h
              have h3 := congrArg Prod.fst h
              simp only at h3
              rw [← h3]
              rfl
          rw [hout, hc]
          exact hsub
      · rw [if_neg h2] at h
        rw [if_neg Bool.false_ne_true] at h
        cases hrun : fixedLoop ps (clampRmin Rmin1) (sorted.headD (qofInt 0)) sorted.reverse
            ⟨fun y x => if vlt (vofQ Rmax1) (initField ps.mask y x) then vofQ Rmax1
              else initField ps.mask y x, [], vofQ Rmax1, 0⟩ with
        | error e => rw [hrun] at h; cases h
        | ok stF =>
          rw [hrun] at h
          rcases fixedLoop_sublist _ _ _ hrun with ⟨tail, hc, hsub⟩
          simp only [List.nil_append] at hc
          have hout : out.circles = stF.circles := by
            cases rd with
            | true =>
              simp only [] at h
              rw [if_pos trivial] at h
              injection h with h
              have h3 := congrArg Prod.fst h
              simp only at h3
              rw [← h3]
              rfl
            | false =>
              simp only [] at h
              rw [if_neg Bool.false_ne_true] at h
              injection h with h
              have h3 := congrArg Prod.fst h
              simp only at h3
              rw [← h3]
              rfl
          rw [hout, hc]
          exact hsub

/-- C5 (amended): in fixed-radii mode the returned radii form a
subsequence — not necessarily a prefix — of the requested radii sorted in
descending order: oversized radii may be skipped while later, smaller
ones are still placed. -/
theorem claim_C5_subsequence {mask : Mask} {rs : List Q} {n : Option ℕ} {margin : Q}
    {rr : Q × Q} {g0 rd : Bool} {choice : ℕ → ℕ} {beta : ℕ → Q}
    {out : PackOut} {ns : List Notice}
    (h : packCircles mask (some rs) n margin rr g0 rd choice beta = .ok (out, ns)) :
    (out.circles.map Circle.r).Sublist ((qsortAsc rs).reverse.map vofQ) := by
  simp only [packCircles] at h
  rw [if_neg (fun hcon => Option.noConfusion hcon.2.1)] at h
  simp only [Option.isSome_some, if_pos] at h
  cases hs : qsortAsc rs with
  | nil => rw [hs] at h; cases h
  | cons r0 rest =>
    rw [hs] at h
    rw [if_neg Bool.false_ne_true] at h
    exact packMain_sublist h

/-- C5 (amended) witness: the concrete fixed-radii run's radii `[2]` form a
subsequence of the descending-sorted request `[10, 2]`. -/
theorem claim_C5_subsequence_witness :
    ((List.map Circle.r [⟨3, 3, vofQ (qofInt 2), 1⟩]).Sublist
      ((qsortAsc [qofInt 10, qofInt 2]).reverse.map vofQ)) :=
  @claim_C5_subsequence (onesMask 9 9) [qofInt 10, qofInt 2] none (qofInt 1)
    (⟨1, 200, by decide⟩, ⟨1, 20, by decide⟩) true false oracle0 beta0
    (.circlesOnly [⟨3, 3, vofQ (qofInt 2), 1⟩]) [.reduceRmax]
    fixedRadiiRun_val

set_option maxRecDepth 40000 in
/-- C9 witness: the all-zero 3×3 mask satisfies the infeasibility premise
and yields the empty `ok` result with the warning notices. -/
theorem claim_C9_infeasible_witness :
    vlt (fieldMax (zeroMask 3 3) (initField (zeroMask 3 3)))
        (vofQ (clampRmin (qmul ⟨1, 200, by decide⟩ (qofNat (Nat.min 3 3))))) = true ∧
      packCircles (zeroMask 3 3) none none (qofInt 1)
          (⟨1, 200, by decide⟩, ⟨1, 20, by decide⟩) true true oracle0 beta0 =
        .ok (.circlesOnly [],
          (if qlt (qmul (⟨1, 200, by decide⟩ : Q) (qofNat (Nat.min 3 3))) (qofInt 1) = true
            then [Notice.subPixelRmin] else []) ++ [Notice.infeasible]) :=
  ⟨by decide, claim_C9_infeasible (by decide)⟩

theorem qlt_false_iff {a b : Q} : qlt a b = false ↔ qval b ≤ qval a := by
  rw [← not_lt, ← qlt_iff]
  cases h : qlt a b <;> simp

theorem clampRmin_ge1 (q : Q) : 1 ≤ qval (clampRmin q) := by
  unfold clampRmin
  by_cases hc : qlt q (qofInt 1) = true
  · rw [if_pos hc, qval_ofInt]
    norm_num
  · rw [if_neg hc]
    have := qlt_false_iff.mp (Bool.of_not_eq_true hc)
    rw [qval_ofInt] at this
    push_cast at this
    linarith

theorem sqDist_self (y x : ℕ) : sqDist y x y x = 0 := by
  unfold sqDist
  simp

theorem pdist_self (y x : ℕ) : pdist y x y x = 0 := by
  unfold pdist
  rw [sqDist_self]
  simp

theorem posCount_le (mask : Mask) (field : ℕ → ℕ → V) :
    posCount mask field ≤ mask.H * mask.W := by
  unfold posCount
  calc ((List.range (mask.H * mask.W)).filter _).length ≤
      (List.range (mask.H * mask.W)).length := List.length_filter_le _ _
  _ = mask.H * mask.W := List.length_range _

theorem insert_posCount_lt {ps : Ps} {st : St} {r : V} {st2 : St}
    (h : insertCircle ps st r = .placed st2)
    (hm : 0 ≤ qval ps.margin) (hr1 : 1 ≤ vval r) :
    posCount ps.mask st2.field < posCount ps.mask st.field := by
  obtain ⟨loc, rq, hloc, hcand, hv, _, hfield, _, _⟩ := insertCircle_placed_spec h
  have hy2 : loc / ps.mask.W < ps.mask.H := loc_div_lt hloc
  have hx2 : loc % ps.mask.W < ps.mask.W := loc_mod_lt hloc
  have hrv : vval r = qval rq := vtoQ_sound hv
  unfold posCount
  apply filter_length_lt_of
  · intro i _ hg
    rw [vlt_iff] at hg ⊢
    have hmono : vval (st2.field (i / ps.mask.W) (i % ps.mask.W)) ≤
        vval (st.field (i / ps.mask.W) (i % ps.mask.W)) := by
      rw [hfield]
      exact repairField_le _ _ _ _ _ _ _ _
    linarith
  · exact List.mem_range.mpr hloc
  · rw [vlt_iff, vval_ofQ, qval_ofInt]
    have hcc := vle_iff.mp hcand
    rw [vval_vaddQ] at hcc
    push_cast
    linarith
  · rw [vlt_false_iff, vval_ofQ, qval_ofInt]
    rw [hfield]
    have hin := repairField_val_in ps.mask st.field st.Rmax (loc / ps.mask.W) (loc % ps.mask.W)
      rq hy2 hx2 (loc / ps.mask.W) (loc % ps.mask.W) ⟨hy2, hx2, by simp, by simp⟩
    rw [hin, pdist_self]
    have hmr := min_le_right (vval (st.field (loc / ps.mask.W) (loc % ps.mask.W))) (0 - qval rq)
    push_cast
    linarith

theorem refreshed_not_noSpace {ps : Ps} {st : St}
    (href : st.Rmax = fieldMax ps.mask st.field) (hne : 0 < ps.mask.H * ps.mask.W) :
    insertCircle ps st (vsubQ st.Rmax ps.margin) ≠ .noSpace := by
  rcases fieldMax_attained ps.mask st.field hne with ⟨y0, x0, hy0, hx0, heq⟩
  have hlt : ps.mask.W * y0 + x0 < ps.mask.H * ps.mask.W := grid_loc_lt hy0 hx0
  have hmem : ps.mask.W * y0 + x0 ∈ candidates ps st.field (vsubQ st.Rmax ps.margin) := by
    unfold candidates
    rw [List.mem_filter]
    refine ⟨List.mem_range.mpr hlt, ?_⟩
    rw [grid_loc_div hx0, grid_loc_mod hx0]
    rw [vle_iff, vval_vaddQ, vval_vsubQ]
    have hv2 : vval st.Rmax = vval (st.field y0 x0) := by rw [href, heq]
    linarith
  intro hcon
  unfold insertCircle at hcon
  cases hc : candidates ps st.field (vsubQ st.Rmax ps.margin) with
  | nil => rw [hc] at hmem; cases hmem
  | cons l0 ls =>
    rw [hc] at hcon
    simp only at hcon
    cases hv : vtoQ (vsubQ st.Rmax ps.margin) with
    | none => rw [hv] at hcon; cases hcon
    | some rq => rw [hv] at hcon; cases hcon

theorem guard_target_ge1 {ps : Ps} {Rmin : Q} {st : St} (hm : 0 ≤ qval ps.margin)
    (hR1 : 1 ≤ qval Rmin) (hg : vle (vofQ (qadd Rmin ps.margin)) st.Rmax = true) :
    1 ≤ vval (vsubQ st.Rmax ps.margin) := by
  have hgv := vle_iff.mp hg
  rw [vval_ofQ, qval_add] at hgv
  rw [vval_vsubQ]
  linarith

theorem innerLoop_facts {ps : Ps} {Rmin : Q} (hm : 0 ≤ qval ps.margin) (hR1 : 1 ≤ qval Rmin) :
    ∀ (fuel : ℕ) (st : St), vle (vofQ (qadd Rmin ps.margin)) st.Rmax = true →
      posCount ps.mask st.field < fuel →
      (innerLoop ps fuel st ≠ .error .fuelOut ∧
        ∀ st2, innerLoop ps fuel st = .ok st2 →
          st2.Rmax = st.Rmax ∧ posCount ps.mask st2.field ≤ posCount ps.mask st.field) := by
  intro fuel
  induction fuel with
  | zero =>
    intro st _ hcount
    exact absurd hcount (Nat.not_lt_zero _)
  | succ fuel ih =>
    intro st hg hcount
    cases hins : insertCircle ps st (vsubQ st.Rmax ps.margin) with
    | noSpace =>
      have hstep : innerLoop ps (fuel + 1) st = .ok st := by
        unfold innerLoop
        rw [hins]
      rw [hstep]
      refine ⟨fun hcon => Except.noConfusion hcon, fun st2 h2 => ?_⟩
      injection h2 with h2
      rw [← h2]
      exact ⟨rfl, le_refl _⟩
    | numFail =>
      have hstep : innerLoop ps (fuel + 1) st = .error .numFail := by
        unfold innerLoop
        rw [hins]
      rw [hstep]
      refine ⟨fun hcon => ?_, fun st2 h2 => Except.noConfusion h2⟩
      injection hcon with hcon
      cases hcon
    | placed st3 =>
      have hstep : innerLoop ps (fuel + 1) st = innerLoop ps fuel st3 := by
        conv_lhs => unfold innerLoop
        rw [hins]
      obtain ⟨_, _, _, _, _, _, _, hRmax3, _⟩ := insertCircle_placed_spec hins
      have hr1 := guard_target_ge1 hm hR1 hg
      have hlt3 := insert_posCount_lt hins hm hr1
      have hg3 : vle (vofQ (qadd Rmin ps.margin)) st3.Rmax = true := by
        rw [hRmax3]
        exact hg
      have hih := ih st3 hg3 (by omega)
      rw [hstep]
      refine ⟨hih.1, fun st2 h2 => ?_⟩
      rcases hih.2 st2 h2 with ⟨ha, hb⟩
      exact ⟨by rw [ha, hRmax3], by omega⟩

theorem outerLoop_refreshed {ps : Ps} {Rmin : Q} (hm : 0 ≤ qval ps.margin)
    (hR1 : 1 ≤ qval Rmin) :
    ∀ (fuel : ℕ) (st : St), st.Rmax = fieldMax ps.mask st.field →
      posCount ps.mask st.field < fuel →
      outerLoop ps Rmin fuel st ≠ .error .fuelOut := by
  intro fuel
  induction fuel with
  | zero =>
    intro st _ hcount
    exact absurd hcount (Nat.not_lt_zero _)
  | succ fuel ih =>
    intro st href hcount hcon
    unfold outerLoop at hcon
    by_cases hg : vle (vofQ (qadd Rmin ps.margin)) st.Rmax = true
    · rw [if_pos hg] at hcon
      have hne : 0 < ps.mask.H * ps.mask.W := by
        by_contra hz
        have hz0 : ps.mask.H * ps.mask.W = 0 := by omega
        have hempty : fieldMax ps.mask st.field = vofQ (qofInt 0) := by
          unfold fieldMax gridVals
          rw [hz0]
          rfl
        have hgv := vle_iff.mp hg
        rw [vval_ofQ, qval_add, href, hempty, vval_ofQ, qval_ofInt] at hgv
        push_cast at hgv
        linarith
      cases hins : insertCircle ps st (vsubQ st.Rmax ps.margin) with
      | noSpace => exact refreshed_not_noSpace href hne hins
      | numFail =>
        have hstep : innerLoop ps (ps.mask.H * ps.mask.W + 1) st = .error .numFail := by
          unfold innerLoop
          rw [hins]
        rw [hstep] at hcon
        simp only [] at hcon
        injection hcon with hcon
        cases hcon
      | placed st3 =>
        have hstep : innerLoop ps (ps.mask.H * ps.mask.W + 1) st =
            innerLoop ps (ps.mask.H * ps.mask.W) st3 := by
          conv_lhs => unfold innerLoop
          rw [hins]
        rw [hstep] at hcon
        obtain ⟨_, _, _, _, _, _, _, hRmax3, _⟩ := insertCircle_placed_spec hins
        have hr1 := guard_target_ge1 hm hR1 hg
        have hlt3 := insert_posCount_lt hins hm hr1
        have hg3 : vle (vofQ (qadd Rmin ps.margin)) st3.Rmax = true := by
          rw [hRmax3]
          exact hg
        have hcount3 : posCount ps.mask st3.field < ps.mask.H * ps.mask.W := by
          have := posCount_le ps.mask st.field
          omega
        have hfacts := innerLoop_facts hm hR1 (ps.mask.H * ps.mask.W) st3 hg3 hcount3
        cases hrun : innerLoop ps (ps.mask.H * ps.mask.W) st3 with
        | error e =>
          rw [hrun] at hcon
          simp only [] at hcon
          have hne2 := hfacts.1
          rw [hrun] at hne2
          exact hne2 hcon
        | ok st2 =>
          rw [hrun] at hcon
          simp only [] at hcon
          rcases hfacts.2 st2 hrun with ⟨_, hcount2⟩
          exact ih ⟨st2.field, st2.circles, fieldMax ps.mask st2.field, st2.rng⟩ rfl
            (by show posCount ps.mask st2.field < fuel; omega) hcon
    · rw [if_neg hg] at hcon
      exact Except.noConfusion hcon

theorem outerLoop_start {ps : Ps} {Rmin : Q} (hm : 0 ≤ qval ps.margin)
    (hR1 : 1 ≤ qval Rmin) (fuel : ℕ) (st : St)
    (hfuel : posCount ps.mask st.field + 2 ≤ fuel) :
    outerLoop ps Rmin fuel st ≠ .error .fuelOut := by
  intro hcon
  cases fuel with
  | zero => omega
  | succ fuel =>
    unfold outerLoop at hcon
    by_cases hg : vle (vofQ (qadd Rmin ps.margin)) st.Rmax = true
    · rw [if_pos hg] at hcon
      have hfacts := innerLoop_facts hm hR1 (ps.mask.H * ps.mask.W + 1) st hg
        (by have := posCount_le ps.mask st.field; omega)
      cases hrun : innerLoop ps (ps.mask.H * ps.mask.W + 1) st with
      | error e =>
        rw [hrun] at hcon
        simp only [] at hcon
        have hne2 := hfacts.1
        rw [hrun] at hne2
        exact hne2 hcon
      | ok st2 =>
        rw [hrun] at hcon
        simp only [] at hcon
        rcases hfacts.2 st2 hrun with ⟨_, hcount2⟩
        exact outerLoop_refreshed hm hR1 fuel
          ⟨st2.field, st2.circles, fieldMax ps.mask st2.field, st2.rng⟩ rfl
          (by show posCount ps.mask st2.field < fuel; omega) hcon
    · rw [if_neg hg] at hcon
      exact Except.noConfusion hcon

theorem insert_invG {ps : Ps} {Rmin Rmax0 : Q} {st st2 : St}
    (h : insertCircle ps st (vsubQ st.Rmax ps.margin) = .placed st2)
    (hg : vle (vofQ (qadd Rmin ps.margin)) st.Rmax = true)
    (hm : 0 ≤ qval ps.margin)
    (hG : InvG ps Rmin Rmax0 st) : InvG ps Rmin Rmax0 st2 := by
  obtain ⟨loc, rq, hloc, _, _, hcirc, _, hRmax, _⟩ := insertCircle_placed_spec h
  have hne : 0 < ps.mask.H * ps.mask.W := by omega
  constructor
  · intro _
    rw [hRmax]
    exact hG.rmax hne
  · intro c hc
    rw [hcirc] at hc
    rcases List.mem_append.mp hc with hold | hnew
    · exact hG.radii c hold
    · have hceq : c = ⟨loc / ps.mask.W, loc % ps.mask.W, vsubQ st.Rmax ps.margin,
          maskFlat ps.mask loc⟩ := by
        simpa using hnew
      subst hceq
      show qval Rmin ≤ vval (vsubQ st.Rmax ps.margin) ∧
        vval (vsubQ st.Rmax ps.margin) ≤ qval Rmax0
      have hgv := vle_iff.mp hg
      rw [vval_ofQ, qval_add] at hgv
      have hub := hG.rmax hne
      rw [vval_vsubQ]
      constructor <;> linarith

theorem refresh_invG {ps : Ps} {Rmin Rmax0 : Q} {st : St}
    (hI : Inv ps st) (hG : InvG ps Rmin Rmax0 st) :
    InvG ps Rmin Rmax0 ⟨st.field, st.circles, fieldMax ps.mask st.field, st.rng⟩ := by
  constructor
  · intro hne
    rcases fieldMax_attained ps.mask st.field hne with ⟨y0, x0, hy0, hx0, heq⟩
    show vval (fieldMax ps.mask st.field) ≤ qval Rmax0
    rw [heq]
    exact le_trans (hI.bound y0 x0 hy0 hx0) (hG.rmax hne)
  · exact hG.radii

theorem innerLoop_invG {ps : Ps} {Rmin Rmax0 : Q} (hm : 0 ≤ qval ps.margin) :
    ∀ (fuel : ℕ) (st st2 : St), innerLoop ps fuel st = .ok st2 →
      vle (vofQ (qadd Rmin ps.margin)) st.Rmax = true →
      InvG ps Rmin Rmax0 st → InvG ps Rmin Rmax0 st2 := by
  intro fuel
  induction fuel with
  | zero => intro st st2 h; cases h
  | succ fuel ih =>
    intro st st2 h hg hG
    unfold innerLoop at h
    cases hins : insertCircle ps st (vsubQ st.Rmax ps.margin) with
    | noSpace => rw [hins] at h; injection h with h; rw [← h]; exact hG
    | numFail => rw [hins] at h; cases h
    | placed st3 =>
      rw [hins] at h
      obtain ⟨_, _, _, _, _, _, _, hRmax3, _⟩ := insertCircle_placed_spec hins
      have hg3 : vle (vofQ (qadd Rmin ps.margin)) st3.Rmax = true := by
        rw [hRmax3]
        exact hg
      exact ih st3 st2 h hg3 (insert_invG hins hg hm hG)

theorem outerLoop_invG {ps : Ps} {Rmin Rmax0 : Q} (hm : 0 ≤ qval ps.margin) :
    ∀ (fuel : ℕ) (st st2 : St), outerLoop ps Rmin fuel st = .ok st2 →
      Inv ps st → InvG ps Rmin Rmax0 st → InvG ps Rmin Rmax0 st2 := by
  intro fuel
  induction fuel with
  | zero => intro st st2 h; cases h
  | succ fuel ih =>
    intro st st2 h hI hG
    unfold outerLoop at h
    by_cases hg : vle (vofQ (qadd Rmin ps.margin)) st.Rmax = true
    · rw [if_pos hg] at h
      cases hin : innerLoop ps (ps.mask.H * ps.mask.W + 1) st with
      | error e => rw [hin] at h; cases h
      | ok st3 =>
        rw [hin] at h
        have hI3 := innerLoop_inv _ st st3 hin hI
        have hG3 := innerLoop_invG hm _ st st3 hin hg hG
        exact ih _ st2 h (refresh_inv hI3) (refresh_invG hI3 hG3)
    · rw [if_neg hg] at h
      injection h with h
      rw [← h]
      exact hG

theorem packMain_greedy_no_fuelOut {ps : Ps} {Rmin1 Rmax1 : Q} {sorted : List Q} {rd : Bool}
    (hm : 0 ≤ qval ps.margin) :
    packMain ps true Rmin1 Rmax1 sorted rd ≠ .error .fuelOut := by
  intro hcon
  simp only [packMain] at hcon
  have hR1 : 1 ≤ qval (clampRmin Rmin1) := clampRmin_ge1 _
  by_cases h1 : vlt (fieldMax ps.mask (initField ps.mask)) (vofQ (clampRmin Rmin1)) = true
  · rw [if_pos h1] at hcon
    cases hcon
  · rw [if_neg h1] at hcon
    by_cases h2 : vlt (fieldMax ps.mask (initField ps.mask)) (vofQ Rmax1) = true
    · rw [if_pos h2] at hcon
      simp only [if_pos] at hcon
      cases hrun : outerLoop ps (clampRmin Rmin1) (ps.mask.H * ps.mask.W + 2)
          ⟨initField ps.mask, [], fieldMax ps.mask (initField ps.mask), 0⟩ with
      | error e =>
        rw [hrun] at hcon
        simp only [] at hcon
        injection hcon with hcon
        subst hcon
        exact outerLoop_start hm hR1 _ _
          (by
            show posCount ps.mask (initField ps.mask) + 2 ≤ ps.mask.H * ps.mask.W + 2
            have := posCount_le ps.mask (initField ps.mask)
            omega) hrun
      | ok stF =>
        rw [hrun] at hcon
        simp only [] at hcon
        cases rd with
        | true => rw [if_pos rfl] at hcon; cases hcon
        | false => rw [if_neg Bool.false_ne_true] at hcon; cases hcon
    · rw [if_neg h2] at hcon
      simp only [if_pos] at hcon
      cases hrun : outerLoop ps (clampRmin Rmin1) (ps.mask.H * ps.mask.W + 2)
          ⟨fun y x => if vlt (vofQ Rmax1) (initField ps.mask y x) then vofQ Rmax1
            else initField ps.mask y x, [], vofQ Rmax1, 0⟩ with
      | error e =>
        rw [hrun] at hcon
        simp only [] at hcon
        injection hcon with hcon
        subst hcon
        exact outerLoop_start hm hR1 _ _
          (by
            show posCount ps.mask (fun y x =>
              if vlt (vofQ Rmax1) (initField ps.mask y x) then vofQ Rmax1
              else initField ps.mask y x) + 2 ≤ ps.mask.H * ps.mask.W + 2
            have := posCount_le ps.mask (fun y x =>
              if vlt (vofQ Rmax1) (initField ps.mask y x) then vofQ Rmax1
              else initField ps.mask y x)
            omega) hrun
      | ok stF =>
        rw [hrun] at hcon
        simp only [] at hcon
        cases rd with
        | true => rw [if_pos rfl] at hcon; cases hcon
        | false => rw [if_neg Bool.false_ne_true] at hcon; cases hcon

theorem packMain_greedy_radii {ps : Ps} {Rmin1 Rmax1 : Q} {sorted : List Q} {rd : Bool}
    {out : PackOut} {ns : List Notice}
    (hm : 0 ≤ qval ps.margin)
    (h : packMain ps true Rmin1 Rmax1 sorted rd = .ok (out, ns)) :
    ∀ c ∈ out.circles, qval (clampRmin Rmin1) ≤ vval c.r ∧ vval c.r ≤ qval Rmax1 := by
  simp only [packMain] at h
  by_cases h1 : vlt (fieldMax ps.mask (initField ps.mask)) (vofQ (clampRmin Rmin1)) = true
  · rw [if_pos h1] at h
    injection h with h
    have h2 := congrArg Prod.fst h
    simp only at h2
    intro c hc
    rw [← h2] at hc
    cases hc
  · rw [if_neg h1] at h
    by_cases h2 : vlt (fieldMax ps.mask (initField ps.mask)) (vofQ Rmax1) = true
    · rw [if_pos h2] at h
      simp only [if_pos] at h
      have hI0 : Inv ps ⟨initField ps.mask, [], fieldMax ps.mask (initField ps.mask), 0⟩ :=
        inv_empty_circles (fun y x hy hx => fieldMax_ge ps.mask (initField ps.mask) hy hx) rfl
      have hG0 : InvG ps (clampRmin Rmin1) Rmax1
          ⟨initField ps.mask, [], fieldMax ps.mask (initField ps.mask), 0⟩ := by
        constructor
        · intro _
          have hlt := vlt_iff.mp h2
          rw [vval_ofQ] at hlt
          show vval (fieldMax ps.mask (initField ps.mask)) ≤ qval Rmax1
          linarith
        · intro c hc
          cases hc
      cases hrun : outerLoop ps (clampRmin Rmin1) (ps.mask.H * ps.mask.W + 2)
          ⟨initField ps.mask, [], fieldMax ps.mask (initField ps.mask), 0⟩ with
      | error e => rw [hrun] at h; cases h
      | ok stF =>
        rw [hrun] at h
        have hout : out.circles = stF.circles := by
          cases rd with
          | true =>
            simp only [] at h
            rw [if_pos trivial] at h
            injection h with h
            have h3 := congrArg Prod.fst h
            simp only at h3
            rw [← h3]
            rfl
          | false =>
            simp only [] at h
            rw [if_neg Bool.false_ne_true] at h
            injection h with h
            have h3 := congrArg Prod.fst h
            simp only at h3
            rw [← h3]
            rfl
        intro c hc
        rw [hout] at hc
        exact (outerLoop_invG hm _ _ _ hrun hI0 hG0).radii c hc
    · rw [if_neg h2] at h
      simp only [if_pos] at h
      have hI0 : Inv ps ⟨fun y x => if vlt (vofQ Rmax1) (initField ps.mask y x) then vofQ Rmax1
          else initField ps.mask y x, [], vofQ Rmax1, 0⟩ := by
        apply inv_empty_circles _ rfl
        intro y x hy hx
        show vval (if vlt (vofQ Rmax1) (initField ps.mask y x) then vofQ Rmax1
          else initField ps.mask y x) ≤ vval (vofQ Rmax1)
        by_cases hc : vlt (vofQ Rmax1) (initField ps.mask y x) = true
        · rw [if_pos hc]
        · rw [if_neg hc]
          exact vlt_false_iff.mp (Bool.of_not_eq_true hc)
      have hG0 : InvG ps (clampRmin Rmin1) Rmax1
          ⟨fun y x => if vlt (vofQ Rmax1) (initField ps.mask y x) then vofQ Rmax1
            else initField ps.mask y x, [], vofQ Rmax1, 0⟩ := by
        constructor
        · intro _
          show vval (vofQ Rmax1) ≤ qval Rmax1
          rw [vval_ofQ]
        · intro c hc
          cases hc
      cases hrun : outerLoop ps (clampRmin Rmin1) (ps.mask.H * ps.mask.W + 2)
          ⟨fun y x => if vlt (vofQ Rmax1) (initField ps.mask y x) then vofQ Rmax1
            else initField ps.mask y x, [], vofQ Rmax1, 0⟩ with
      | error e => rw [hrun] at h; cases h
      | ok stF =>
        rw [hrun] at h
        have hout : out.circles = stF.circles := by
          cases rd with
          | true =>
            simp only [] at h
            rw [if_pos trivial] at h
            injection h with h
            have h3 := congrArg Prod.fst h
            simp only at h3
            rw [← h3]
            rfl
          | false =>
            simp only [] at h
            rw [if_neg Bool.false_ne_true] at h
            injection h with h
            have h3 := congrArg Prod.fst h
            simp only at h3
            rw [← h3]
            rfl
        intro c hc
        rw [hout] at hc
        exact (outerLoop_invG hm _ _ _ hrun hI0 hG0).radii c hc

/-- C7: for every mask and configuration with non-negative margin, the
greedy run terminates — the fuel budget of `H*W + 2` outer rounds (each
inner round bounded by the pixel count) is never exhausted — and every
returned circle's radius lies between the clamped `Rmin` and the initial
`Rmax` derived from `radius_range`. -/
theorem claim_C7_greedy {mask : Mask} {n : Option ℕ} {margin : Q} {rr : Q × Q}
    {rd : Bool} {choice : ℕ → ℕ} {beta : ℕ → Q}
    (hm : 0 ≤ qval margin) :
    packCircles mask none n margin rr true rd choice beta ≠ .error .fuelOut ∧
    ∀ out ns, packCircles mask none n margin rr true rd choice beta = .ok (out, ns) →
      ∀ c ∈ out.circles,
        qval (clampRmin (qmul rr.1 (qofNat (Nat.min mask.H mask.W)))) ≤ vval c.r ∧
        vval c.r ≤ qval (qmul rr.2 (qofNat (Nat.min mask.H mask.W))) := by
  have hred : packCircles mask none n margin rr true rd choice beta =
      packMain ⟨mask, margin, choice⟩ true
        (qmul rr.1 (qofNat (Nat.min mask.H mask.W)))
        (qmul rr.2 (qofNat (Nat.min mask.H mask.W))) [] rd := by
    simp only [packCircles]
    rw [if_neg (fun hcon => hcon.1 trivial)]
    simp only [Option.isSome_none]
    simp only [if_neg (Bool.false_ne_true), if_pos]
  constructor
  · intro hcon
    rw [hred] at hcon
    exact packMain_greedy_no_fuelOut hm hcon
  · intro out ns h
    rw [hred] at h
    exact packMain_greedy_radii hm h

theorem claim_C7_greedy_witness :
    0 ≤ qval (qofInt 1) ∧
    packCircles (onesMask 5 9) none (some 1) (qofInt 1)
      (⟨1, 5, by decide⟩, ⟨2, 5, by decide⟩) true false oracle0 beta0 ≠
        .error .fuelOut :=
  ⟨by rw [qval_ofInt]; norm_num,
    (claim_C7_greedy (by rw [qval_ofInt]; norm_num)).1⟩

end CirclePack
